import Mathlib

set_option allowUnsafeReducibility true
set_option maxRecDepth 40000
attribute [semireducible] Rat.add Rat.mul Rat.inv Rat.div Rat.sub Rat.neg

/-!
# Verification of the dream-go MCTS engine core

Shallow embedding of the search/batching engine of the repository
(`src/mcts/mod.rs`, `src/libdg_go/circular_buf.rs`) and proofs about it.

The numeric values flowing through the engine are Rust `f32`.  They are
modelled by `GFloat`: negative infinity, a non-normal finite value
(`sub`, covering `0.0` and subnormals, whose classification the code
branches on via `f32::is_normal`), and a normal value (`norm`) carrying
an exact rational payload.  Arithmetic on the payload is exact rational
arithmetic, an idealization of `f32` rounding; all claims proved here
depend only on the finite/non-normal/negative-infinity classification
and on ratios that `f32` represents exactly at the witnesses used.

External collaborators of the code under `src/` (the `go` board, the
`symmetry` module, the `tree` coordinate tables) are not part of the
sources; definitions for them are modelled from the spec and carry a
`Modelled from the spec:` comment.
-/

namespace DreamGo

/-- Model of an `f32` as classified by the engine: `negInf` is
`f32::NEG_INFINITY`; `sub q` is a non-normal finite value (zero or a
subnormal, `is_normal() == false`); `norm q` is a normal value
(`is_normal() == true`). -/
inductive GFloat where
  | negInf : GFloat
  | sub : ℚ → GFloat
  | norm : ℚ → GFloat
deriving DecidableEq, Repr

namespace GFloat

/-- `f32::is_normal`: true exactly for normal values. -/
def isNormal : GFloat → Bool
  | norm _ => true
  | _ => false

/-- Addition as used by the merge step (`policy[dst] += policy[src]`);
the code only ever adds two values it has checked to be normal.
`-∞ + finite = -∞` as in IEEE 754. -/
def add : GFloat → GFloat → GFloat
  | negInf, _ => negInf
  | _, negInf => negInf
  | sub a, sub b => sub (a + b)
  | sub a, norm b => if a + b = 0 then sub 0 else norm (a + b)
  | norm a, sub b => if a + b = 0 then sub 0 else norm (a + b)
  | norm a, norm b => if a + b = 0 then sub 0 else norm (a + b)

/-- Multiplication by the positive reciprocal used in renormalization
(`policy[i] *= policy_recip`): `-∞ * r = -∞` for `r > 0`. -/
def scale (r : ℚ) : GFloat → GFloat
  | negInf => negInf
  | sub a => sub (a * r)
  | norm a => norm (a * r)

end GFloat

/-- The two player colors (`go::Color`). -/
inductive Color where
  | black : Color
  | white : Color
deriving DecidableEq, Repr

/-- `Color::opposite`. -/
def Color.opposite : Color → Color
  | .black => .white
  | .white => .black

/-- The eight board symmetries (`symmetry::Transform`), in the order of
the `SYMM` table in `forward`. -/
inductive Transform where
  | identity | flipLR | flipUD | transpose | transposeAnti
  | rot90 | rot180 | rot270
deriving DecidableEq, Repr

/-- Modelled from the spec: the coordinate tables `tree::X`/`tree::Y`
("coordinate↔linear-index tables for the 361 playable points"): a board
index `i < 361` has column `i % 19` and row `i / 19`. -/
def coordX (i : Nat) : Nat := i % 19

/-- Modelled from the spec: row of board index `i`, see `coordX`. -/
def coordY (i : Nat) : Nat := i / 19

/-- Modelled from the spec: `symmetry::Transform::apply(index) -> index`,
the action of a transform on a linear board index, via the coordinate
maps of the eight symmetries of the 19×19 board. -/
def Transform.apply (t : Transform) (i : Nat) : Nat :=
  let x := coordX i
  let y := coordY i
  match t with
  | identity => x + 19 * y
  | flipLR => (18 - x) + 19 * y
  | flipUD => x + 19 * (18 - y)
  | transpose => y + 19 * x
  | transposeAnti => (18 - y) + 19 * (18 - x)
  | rot90 => (18 - y) + 19 * x
  | rot180 => (18 - x) + 19 * (18 - y)
  | rot270 => y + 19 * (18 - x)

/-- The `SYMM` table of `forward`, identity first. -/
def SYMM : List Transform :=
  [.identity, .flipLR, .flipUD, .transpose, .transposeAnti,
   .rot90, .rot180, .rot270]

/-- Modelled from the spec: the board interface consumed by `forward`
("clone, apply-move, query-legality(color, x, y)" and
"is-position-invariant-under(board, transform)").  A board is a record
of the two queries `forward` makes. -/
structure Board where
  isValid : Color → Nat → Nat → Bool
  isSymmetric : Transform → Bool

/-- The legality-masking loop of `forward` (`for i in 0..361 { if
!board.is_valid(color, x, y) { policy[i] = NEG_INFINITY } }`), written
as a recursion over the loop counter.  `fuel` counts the remaining
indices to visit starting at `i`. -/
def maskAux (board : Board) (color : Color) :
    Nat → Nat → List GFloat → List GFloat
  | 0, _, policy => policy
  | fuel + 1, i, policy =>
      let policy' :=
        if board.isValid color (coordX i) (coordY i) then policy
        else policy.set i .negInf
      maskAux board color fuel (i + 1) policy'

/-- Step (5) of the augmented forward pass: set every illegal move in
`0..361` to `-∞`, leaving the pass entry `361` untouched. -/
def maskIllegal (board : Board) (color : Color) (policy : List GFloat) :
    List GFloat :=
  maskAux board color 361 0 policy

/-- The panic raised by a failed `assert!`. -/
inductive Panic where
  | assertFailed : Panic
deriving DecidableEq, Repr

/-- The body of the symmetry-merge loop of `forward` for one index `i`
of one transform pass: `j = t.apply(i); if i != j && !visited[i] { mark
both; src = max i j; dst = min i j; if policy[src].is_normal() {
assert!(policy[dst].is_normal()); policy[dst] += policy[src];
policy[src] = NEG_INFINITY } }`. -/
def mergeStep (t : Transform) (i : Nat) (visited : List Bool)
    (policy : List GFloat) : Except Panic (List Bool × List GFloat) :=
  let j := t.apply i
  if i ≠ j ∧ visited.getD i true = false then
    let visited' := (visited.set i true).set j true
    let src := max i j
    let dst := min i j
    if (policy.getD src .negInf).isNormal then
      if (policy.getD dst .negInf).isNormal then
        let policy' :=
          (policy.set dst ((policy.getD dst .negInf).add
            (policy.getD src .negInf))).set src .negInf
        .ok (visited', policy')
      else
        .error .assertFailed
    else
      .ok (visited', policy)
  else
    .ok (visited, policy)

/-- The `for i in 0..361` loop of one symmetry-merge pass. -/
def mergePassAux (t : Transform) :
    Nat → Nat → List Bool → List GFloat → Except Panic (List GFloat)
  | 0, _, _, policy => .ok policy
  | fuel + 1, i, visited, policy =>
      match mergeStep t i visited policy with
      | .error e => .error e
      | .ok (visited', policy') => mergePassAux t fuel (i + 1) visited' policy'

/-- One symmetry-merge pass of `forward` for transform `t`: runs only
when the untransformed board is invariant under `t` (`if
!symmetry::is_symmetric(board, t) { continue; }`); starts from a fresh
`visited = [false; 368]`. -/
def mergePass (board : Board) (t : Transform) (policy : List GFloat) :
    Except Panic (List GFloat) :=
  if board.isSymmetric t then
    mergePassAux t 361 0 (List.replicate 368 false) policy
  else
    .ok policy

/-- The `for &t in &SYMM[1..8]` loop of the merge step, over a list of
transforms still to process. -/
def mergeFold (board : Board) : List Transform → List GFloat → Except Panic (List GFloat)
  | [], policy => .ok policy
  | t :: ts, policy =>
      match mergePass board t policy with
      | .error e => .error e
      | .ok policy' => mergeFold board ts policy'

/-- Step (6) of the augmented forward pass: the merge passes over the
seven non-identity transforms `SYMM[1..8]`, in table order. -/
def mergeSymmetries (board : Board) (policy : List GFloat) :
    Except Panic (List GFloat) :=
  mergeFold board SYMM.tail policy

/-- `policy.iter().filter(|p| p.is_normal()).sum()`. -/
def normalSum (policy : List GFloat) : ℚ :=
  (policy.filter (fun p => p.isNormal)).foldr
    (fun p acc => (match p with | .norm q => q | .sub q => q | .negInf => 0) + acc) 0

/-- Step (7) of the augmented forward pass: renormalize by the
reciprocal of the sum of the normal entries, skipped when the sum is
not above the `1e-4` floor. -/
def renormalize (policy : List GFloat) : List GFloat :=
  let s := normalSum policy
  if 1 / 10000 < s then policy.map (GFloat.scale s⁻¹) else policy

/-- Steps (5)–(7) of `forward` applied to the policy as expressed in
original board coordinates (i.e. after the random transform has been
drawn, the net evaluated, and the inverse transform applied — steps
(1)–(4), which only determine this input).  Returns the final policy,
or the panic raised by the merge assertion. -/
def forwardPolicy (board : Board) (color : Color) (policy : List GFloat) :
    Except Panic (List GFloat) :=
  (mergeSymmetries board (maskIllegal board color policy)).map renormalize

/-! ## RingHistory (`libdg_go/circular_buf.rs`) -/

/-- The `N_MOD_SIX` lookup table: `(index + 1) % 6`. -/
def nModSix : List Nat := [1, 2, 3, 4, 5, 0]

/-- The `P_MOD_SIX` lookup table: `(index - 1) % 6` with wrap-around. -/
def pModSix : List Nat := [5, 0, 1, 2, 3, 4]

/-- `CircularIterator`: the borrowed-iterator state (`count`, `position`,
and the buffer it reads).  Buffer values are `u16`, modelled as `Nat`. -/
structure CircularIterator where
  count : Nat
  position : Nat
  buf : List Nat
deriving DecidableEq, Repr

/-- `CircularIterator::next`: `None` once six items were produced, else
the slot at `position`, stepping `position` backward through
`P_MOD_SIX`. -/
def CircularIterator.next (it : CircularIterator) : Option (Nat × CircularIterator) :=
  if it.count = 6 then
    none
  else
    some (it.buf.getD it.position 0,
      { it with position := pModSix.getD it.position 0, count := it.count + 1 })

/-- `CircularBuf`: six `u16` slots and the position of the next write. -/
structure CircularBuf where
  position : Nat
  buf : List Nat
deriving DecidableEq, Repr

/-- `CircularBuf::new()`: all six slots hold the sentinel value `361`
("no move"), writing starts at slot 0. -/
def CircularBuf.new : CircularBuf :=
  { position := 0, buf := List.replicate 6 361 }

/-- `CircularBuf::push`: overwrite the slot at `position`, then advance
`position` through `N_MOD_SIX`. -/
def CircularBuf.push (b : CircularBuf) (value : Nat) : CircularBuf :=
  { position := nModSix.getD b.position 0, buf := b.buf.set b.position value }

/-- `CircularBuf::iter`: a fresh iterator starting one slot before the
write position (`&self` borrow: the buffer itself is not changed). -/
def CircularBuf.iter (b : CircularBuf) : CircularIterator :=
  { count := 0, position := pModSix.getD b.position 0, buf := b.buf }

/-- Collect the items an iterator still yields (`fuel` bounds the
recursion; the iterator stops after six items, so fuel 7 collects
everything). -/
def iterItems : Nat → CircularIterator → List Nat
  | 0, _ => []
  | fuel + 1, it =>
      match it.next with
      | none => []
      | some (v, it') => v :: iterItems fuel it'

/-- All items one full iteration over the buffer yields. -/
def CircularBuf.items (b : CircularBuf) : List Nat :=
  iterItems 7 b.iter

/-- Push a whole list of values in order. -/
def CircularBuf.pushAll (b : CircularBuf) (vs : List Nat) : CircularBuf :=
  vs.foldl CircularBuf.push b

/-! ## Self-play driver (`self_play` in `mcts/mod.rs`)

The driver is polymorphic in the board representation: the board type
of the `go` crate is not part of the sources, so (modelled from the
spec) it is an opaque type `β` with the one operation `self_play`
invokes on it, `place`.  Each `sgf += format!(...)` append of one ply
is modelled as one structured `SgfEntry` (the `b85`-encoded policy
string is modelled as the policy itself, the two SGF coordinate
letters as the coordinates). -/

/-- One textual entry appended to the game record. -/
inductive SgfEntry where
  | resignEntry (c : Color)
  | passEntry (c : Color) (policy : List ℚ)
  | moveEntry (c : Color) (x y : Nat) (policy : List ℚ) (px py : Nat)
deriving DecidableEq, Repr

/-- `GameResult`: `Resign(sgf, board, winner, margin)` or
`Ended(sgf, board)`. -/
inductive GameResult (β : Type) where
  | resign (sgf : List SgfEntry) (board : β) (winner : Color) (margin : ℚ)
  | ended (sgf : List SgfEntry) (board : β)
deriving DecidableEq

/-- Modelled from the spec: the board operation `self_play` uses
("apply-move"), `board.place(current, x, y)`. -/
structure BoardOps (β : Type) where
  place : β → Color → Nat → Nat → β

/-- The result of one `predict` call as consumed by `self_play`:
`(value, index, prior_index, policy)`. -/
structure Prediction where
  value : ℚ
  index : Nat
  priorIndex : Nat
  policy : List ℚ
deriving DecidableEq, Repr

/-- The body of the `while count < 722` loop of `self_play` for one
ply: either a final `GameResult` (`.inl`) or the next
`(board, current, pass_count, sgf)` state (`.inr`). -/
def selfPlayStep {β : Type} (ops : BoardOps β) (predictFn : β → Color → Prediction)
    (board : β) (current : Color) (passCount : Nat) (sgf : List SgfEntry) :
    GameResult β ⊕ (β × Color × Nat × List SgfEntry) :=
  let r := predictFn board current
  if r.value < -(9 / 10) then
    .inl (.resign (sgf ++ [.resignEntry current]) board current.opposite (-r.value))
  else if r.index = 361 then
    let sgf' := sgf ++ [.passEntry current r.policy]
    if 2 ≤ passCount + 1 then
      .inl (.ended sgf' board)
    else
      .inr (board, current.opposite, passCount + 1, sgf')
  else
    let x := coordX r.index
    let y := coordY r.index
    let pxy := if r.priorIndex = 361 then (19, 19)
      else (coordX r.priorIndex, coordY r.priorIndex)
    .inr (ops.place board current x y, current.opposite, 0,
      sgf ++ [.moveEntry current x y r.policy pxy.1 pxy.2])

/-- The ply loop of `self_play`; `fuel = 722 - count` plies remain.
When the fuel runs out the game is `Ended` with the current record and
board, as after the loop in the source. -/
def selfPlayLoop {β : Type} (ops : BoardOps β) (predictFn : β → Color → Prediction) :
    Nat → β → Color → Nat → List SgfEntry → GameResult β
  | 0, board, _, _, sgf => .ended sgf board
  | fuel + 1, board, current, passCount, sgf =>
      match selfPlayStep ops predictFn board current passCount sgf with
      | .inl result => result
      | .inr (board', current', passCount', sgf') =>
          selfPlayLoop ops predictFn fuel board' current' passCount' sgf'

/-- `self_play`: up to `2 * 19 * 19 = 722` plies starting from the
given board with Black to move, no passes yet, an empty record. -/
def selfPlay {β : Type} (ops : BoardOps β) (predictFn : β → Color → Prediction)
    (startBoard : β) : GameResult β :=
  selfPlayLoop ops predictFn 722 startBoard .black 0 []

/-! ## The configuration guard of `predict` (`mcts/mod.rs` lines 238–239) -/

/-- The three `Param` values `predict` reads:
`iteration_limit`, `batch_size`, `thread_count`. -/
structure MctsConfig where
  iterationLimit : Nat
  batchSize : Nat
  threadCount : Nat
deriving DecidableEq, Repr

/-- The externally visible effects of `predict`, in program order. -/
inductive PredictEvent where
  | rootEval : PredictEvent
  | spawnWorker : PredictEvent
  | batchEval : PredictEvent
deriving DecidableEq, Repr

/-- The effect trace of `predict`: the two `assert_eq!` divisibility
checks run first; on failure the function panics having performed no
effect; otherwise the one-off immediate root evaluation, then
`thread_count` thread spawns, then `iteration_limit / batch_size`
dispatcher batch evaluations. -/
def predictEvents (cfg : MctsConfig) : List PredictEvent × Option Panic :=
  if cfg.iterationLimit % cfg.batchSize ≠ 0 then
    ([], some .assertFailed)
  else if cfg.threadCount % cfg.batchSize ≠ 0 then
    ([], some .assertFailed)
  else
    (.rootEval :: (List.replicate cfg.threadCount .spawnWorker ++
      List.replicate (cfg.iterationLimit / cfg.batchSize) .batchEval), none)

/-! ## The batch dispatcher loop (`mcts/mod.rs` lines 285–304)

The dispatcher runs on the calling thread.  Its input channel is
modelled by the list of pending `(features, reply-channel)` requests in
arrival order, a reply channel by the identity of its requester.  Each
loop iteration blocks until it has received `batch_size` requests
(`none` models the dispatcher blocking forever when fewer ever
arrive), calls `nn::forward` once on the whole batch, and sends
`(values[i], policies[i])` to the `i`-th collected sender. -/

/-- The dispatcher loop: `n` iterations of collect / evaluate / reply.
Returns the feature batches passed to the evaluator (one entry per
`nn::forward` call) and all replies `(requester, value, policy)` in
send order. -/
def dispatcherRun {φ π : Type} (eval : List φ → List ℚ × List π) (batchSize : Nat) :
    Nat → List (φ × Nat) → Option (List (List φ) × List (Nat × ℚ × π))
  | 0, _ => some ([], [])
  | n + 1, pending =>
      if batchSize ≤ pending.length then
        let batch := pending.take batchSize
        let features := batch.map Prod.fst
        let vp := eval features
        let replies := List.zipWith (fun (req : φ × Nat) (r : ℚ × π) =>
          (req.2, r.1, r.2)) batch (vp.1.zip vp.2)
        match dispatcherRun eval batchSize n (pending.drop batchSize) with
        | some (batches, replies') => some (features :: batches, replies ++ replies')
        | none => none
      else
        none

/-- The batches the claim predicts: the pending requests' features cut
into consecutive chunks of `batchSize`, in arrival order. -/
def expectedBatches {φ : Type} (batchSize n : Nat) (pending : List (φ × Nat)) :
    List (List φ) :=
  (List.range n).map (fun k => ((pending.drop (k * batchSize)).take batchSize).map Prod.fst)

/-- The replies the claim predicts: for every batch, the `i`-th
requester of the batch receives the `i`-th value and `i`-th policy of
the evaluator's output for that batch. -/
def expectedReplies {φ π : Type} (eval : List φ → List ℚ × List π) (batchSize n : Nat)
    (pending : List (φ × Nat)) : List (Nat × ℚ × π) :=
  ((List.range n).map (fun k =>
    let batch := (pending.drop (k * batchSize)).take batchSize
    let vp := eval (batch.map Prod.fst)
    List.zipWith (fun (req : φ × Nat) (r : ℚ × π) => (req.2, r.1, r.2))
      batch (vp.1.zip vp.2))).flatten

/-! ## The search coordinator at the claimed configuration
(`predict`, `mcts/mod.rs` lines 256–308)

A small-step interleaving model of `predict` at the configuration of
the claim: `iteration_limit = 8`, `batch_size = 2`, `thread_count = 2`.
The two workers are named by a `Bool`.  A worker step (`work w e`)
performs one loop iteration of the worker thread `w`: one
`fetch_sub(1)` on the shared counter and, when the claimed value was
positive, one probe — `e` tells whether that probe returned an empty
trace (in which case the worker sends no request) — else the worker
enqueues its request and blocks on its reply channel.  A dispatcher
step (`recv`) receives one pending request; when it completes a batch
of 2 the evaluator runs and both requesters get their replies, insert
into the tree, and resume their loops.  A worker whose `fetch_sub`
claimed a non-positive value exits (is ready to be joined). -/

/-- The observable state of one worker thread. -/
inductive WStatus where
  | idle : WStatus
  | waiting : WStatus
  | exited : WStatus
deriving DecidableEq, Repr

/-- The shared state of the coordinator run. -/
structure SysState where
  rem : Int
  w0 : WStatus
  w1 : WStatus
  queue : List Bool
  batchAcc : List Bool
  batches : Nat
  inserts : Nat
deriving DecidableEq, Repr

/-- One schedulable action: a worker loop iteration (with the
emptiness of its probe's trace), or the dispatcher receiving one
request. -/
inductive SysAct where
  | work (w : Bool) (emptyTrace : Bool) : SysAct
  | recv : SysAct
deriving DecidableEq

/-- Status of worker `w`. -/
def SysState.wstatus (s : SysState) (w : Bool) : WStatus :=
  if w then s.w1 else s.w0

/-- Overwrite the status of worker `w`. -/
def SysState.setw (s : SysState) (w : Bool) (st : WStatus) : SysState :=
  if w then { s with w1 := st } else { s with w0 := st }

/-- The transition relation of the coordinator model; `none` when the
action is not enabled (the thread in question is blocked or exited). -/
def sysStep (s : SysState) : SysAct → Option SysState
  | .work w e =>
      match s.wstatus w with
      | .idle =>
          if 0 < s.rem then
            if e then
              some { s with rem := s.rem - 1 }
            else
              let s' := s.setw w .waiting
              some { s' with rem := s.rem - 1, queue := s.queue ++ [w] }
          else
            let s' := s.setw w .exited
            some { s' with rem := s.rem - 1 }
      | _ => none
  | .recv =>
      if s.batches < 4 then
        match s.queue with
        | [] => none
        | h :: rest =>
            let acc := s.batchAcc ++ [h]
            if acc.length = 2 then
              let s' : SysState :=
                { s with queue := rest, batchAcc := [], batches := s.batches + 1, inserts := s.inserts + 2 }
              some ((s'.setw (acc.getD 0 false) .idle).setw (acc.getD 1 false) .idle)
            else
              some { s with queue := rest, batchAcc := acc }
      else none

/-- The initial state: the counter holds `iteration_limit = 8`, both
workers are about to enter their loops, no requests, no batches. -/
def sysInit : SysState :=
  { rem := 8, w0 := .idle, w1 := .idle, queue := [], batchAcc := [],
    batches := 0, inserts := 0 }

/-- Run a schedule from a state; `none` as soon as a scheduled action
is not enabled. -/
def sysRun (s : SysState) : List SysAct → Option SysState
  | [] => some s
  | a :: rest =>
      match sysStep s a with
      | none => none
      | some s' => sysRun s' rest

/-- No action is enabled: every thread is blocked or exited. -/
def SysStuck (s : SysState) : Prop :=
  ∀ a : SysAct, sysStep s a = none

/-- The search completed: the dispatcher ran all 4 batches and both
workers exited their loops (so `join` returns at once). -/
def SysFinal (s : SysState) : Prop :=
  s.batches = 4 ∧ s.w0 = .exited ∧ s.w1 = .exited

/-- How many of the two workers have a given status. -/
def SysState.statusCount (s : SysState) (st : WStatus) : Nat :=
  (if s.w0 = st then 1 else 0) + (if s.w1 = st then 1 else 0)

/-- The inductive invariant of runs in which no probe returned an empty
trace. -/
def SysInv (s : SysState) : Prop :=
  s.statusCount .waiting = s.queue.length + s.batchAcc.length ∧
  s.inserts = 2 * s.batches ∧
  s.batchAcc.length ≤ 1 ∧
  ((s.queue.length + s.batchAcc.length + s.inserts +
    s.statusCount .exited : Int) = 8 - s.rem) ∧
  ((s.statusCount .exited : Int) = max 0 (-s.rem)) ∧
  (∀ w ∈ s.queue ++ s.batchAcc, s.wstatus w = .waiting) ∧
  (s.queue ++ s.batchAcc).Nodup

/-- The termination measure of the coordinator model. -/
def sysMeasure (s : SysState) : Nat :=
  (s.rem + 2).toNat * 30 + 2 * s.queue.length + s.batchAcc.length

/-! ## Concrete instances used by counterexamples and witnesses -/

/-- The fully symmetric empty board: every move legal, invariant under
all eight transforms. -/
def emptyBoard : Board :=
  { isValid := fun _ _ _ => true, isSymmetric := fun _ => true }

/-- A board with no symmetry at all and no legal board move (only the
pass move remains). -/
def fullBoard : Board :=
  { isValid := fun _ _ _ => false, isSymmetric := fun _ => false }

/-- A board that is symmetric under `FlipLR` only. -/
def lrBoard : Board :=
  { isValid := fun _ _ _ => true, isSymmetric := fun t => t = .flipLR }

/-- A board whose only legal moves are the four points `(8,0)`, `(10,0)`,
`(8,18)`, `(10,18)` — a pattern invariant under both flips and the
half-turn, but not under the diagonal symmetries. -/
def crossBoard : Board :=
  { isValid := fun _ x y =>
      (x = 8 ∨ x = 10) ∧ (y = 0 ∨ y = 18),
    isSymmetric := fun t => t = .flipLR ∨ t = .flipUD ∨ t = .rot180 }

/-- A policy that is zero everywhere: every entry is a non-normal
finite `f32` (`0.0`). -/
def zeroPolicy : List GFloat := List.replicate 362 (.sub 0)

/-- The evaluator policy of the C10 counterexample: `0.0` at index 10,
the normal value 1 at indices 8, 350, 352 and at the pass index, `-∞`
elsewhere (already expressed in original coordinates). -/
def c10Policy : List GFloat :=
  ((((List.replicate 362 GFloat.negInf).set 8 (.norm 1)).set 10
    (.sub 0)).set 350 (.norm 1)).set 352 (.norm 1) |>.set 361 (.norm 1)

/-- The witness policy for the amended C10: zero everywhere except a
normal value at index 10 (the larger member of the FlipLR pair
`(8, 10)`). -/
def c10wPolicy : List GFloat := zeroPolicy.set 10 (.norm 1)

/-- Whether an `Except` computation completed without a panic. -/
def exceptIsOk {ε α : Type} : Except ε α → Bool
  | .ok _ => true
  | .error _ => false

/-- The C10 counterexample policy after the FlipLR pass: the pair
`(350, 352)` has been merged. -/
def c10P1 : List GFloat := (c10Policy.set 350 (.norm 2)).set 352 .negInf

/-- The C10 counterexample policy after the FlipUD pass: the pair
`(8, 350)` has been merged as well. -/
def c10P2 : List GFloat := (c10P1.set 8 (.norm 3)).set 350 .negInf

/-- The deadlocking schedule of the C2 counterexample: worker 0's first
probe returns an empty trace (so one request is never sent); the
remaining seven iterations are served in three full batches plus one
request the dispatcher collects while waiting forever for an eighth. -/
def c2DeadlockActs : List SysAct :=
  [.work false true,
   .work false false, .work true false, .recv, .recv,
   .work false false, .work true false, .recv, .recv,
   .work false false, .work true false, .recv, .recv,
   .work false false, .recv, .work true false]

/-- The stuck state the deadlocking schedule reaches: three batches
done, worker 0 blocked on its reply channel forever, worker 1 exited,
the dispatcher blocked in `recv`. -/
def c2DeadState : SysState :=
  { rem := -1, w0 := .waiting, w1 := .exited, queue := [], batchAcc := [false],
    batches := 3, inserts := 6 }

/-- A complete schedule with no empty traces: four alternating rounds
of two probes and one batch, then both workers observe the exhausted
counter and exit. -/
def c2RunActs : List SysAct :=
  [.work false false, .work true false, .recv, .recv,
   .work false false, .work true false, .recv, .recv,
   .work false false, .work true false, .recv, .recv,
   .work false false, .work true false, .recv, .recv,
   .work false false, .work true false]

/-- The final state of the complete schedule: four batches, eight
inserts, both workers exited. -/
def c2FinalState : SysState :=
  { rem := -2, w0 := .exited, w1 := .exited, queue := [], batchAcc := [],
    batches := 4, inserts := 8 }

/-- A policy all of whose entries are `-∞` or positive normal values —
the shape of a policy whose surviving entries carry positive
probability mass. -/
def posNormalPolicy (p : List GFloat) : Prop :=
  ∀ k : Nat, p.getD k .negInf = .negInf ∨ ∃ q : ℚ, 0 < q ∧ p.getD k .negInf = .norm q

/-! # Theorems -/

theorem getD_set_ne {α : Type} (l : List α) {i j : Nat} (a d : α) (h : i ≠ j) :
    (l.set i a).getD j d = l.getD j d := by
  simp [List.getD, List.getElem?_set_ne h]

theorem getD_set_self {α : Type} (l : List α) {i : Nat} (a d : α) (h : i < l.length) :
    (l.set i a).getD i d = a := by
  simp [List.getD, List.getElem?_set_self', h]

theorem getD_of_le_length {α : Type} (l : List α) {i : Nat} (d : α) (h : l.length ≤ i) :
    l.getD i d = d := by
  simp [List.getD, List.getElem?_eq_none, h]

/-- A policy entry that the code observed to be normal is in range. -/
theorem lt_length_of_isNormal {p : List GFloat} {k : Nat}
    (h : (p.getD k .negInf).isNormal = true) : k < p.length := by
  by_contra hk
  rw [getD_of_le_length p .negInf (Nat.le_of_not_lt hk)] at h
  simp [GFloat.isNormal] at h

/-- Every transform keeps board indices inside `0..361`. -/
theorem apply_lt (t : Transform) (i : Nat) (hi : i < 361) : t.apply i < 361 := by
  have hx : i % 19 ≤ 18 := by omega
  have hy : i / 19 ≤ 18 := by omega
  cases t <;> simp only [Transform.apply, coordX, coordY] <;> omega

/-- Every transform is injective on board indices. -/
theorem apply_inj (t : Transform) (a b : Nat) (ha : a < 361) (hb : b < 361)
    (h : t.apply a = t.apply b) : a = b := by
  have hxa : a % 19 ≤ 18 := by omega
  have hya : a / 19 ≤ 18 := by omega
  have hxb : b % 19 ≤ 18 := by omega
  have hyb : b / 19 ≤ 18 := by omega
  have ea : a = a % 19 + 19 * (a / 19) := by omega
  have eb : b = b % 19 + 19 * (b / 19) := by omega
  cases t <;> simp only [Transform.apply, coordX, coordY] at h <;> omega

/-- The flips, transposes and the half turn are involutions on board
indices. -/
theorem flipLR_involutive (a : Nat) (ha : a < 361) :
    Transform.flipLR.apply (Transform.flipLR.apply a) = a := by
  have hx : a % 19 ≤ 18 := by omega
  have hy : a / 19 ≤ 18 := by omega
  simp only [Transform.apply, coordX, coordY]
  omega

/-! ## The masking step (claim C5 and supporting facts) -/

theorem maskAux_length (board : Board) (c : Color) :
    ∀ (fuel i : Nat) (p : List GFloat), (maskAux board c fuel i p).length = p.length := by
  intro fuel
  induction fuel with
  | zero => intro i p; rfl
  | succ n ih =>
      intro i p
      simp only [maskAux]
      split <;> simp [ih, List.length_set]

/-- Indices outside the window the masking loop still has to visit are
left alone. -/
theorem maskAux_getD_out (board : Board) (c : Color) :
    ∀ (fuel i : Nat) (p : List GFloat) (k : Nat), (k < i ∨ i + fuel ≤ k) →
      (maskAux board c fuel i p).getD k .negInf = p.getD k .negInf := by
  intro fuel
  induction fuel with
  | zero => intro i p k _; rfl
  | succ n ih =>
      intro i p k hout
      have hki : k ≠ i := by omega
      simp only [maskAux]
      by_cases hv : board.isValid c (coordX i) (coordY i) = true
      · simp only [hv, if_true]
        exact ih (i + 1) p k (by omega)
      · simp only [Bool.not_eq_true] at hv
        simp only [hv, Bool.false_eq_true, if_false]
        rw [ih (i + 1) (p.set i .negInf) k (by omega)]
        exact getD_set_ne p .negInf .negInf (fun h => hki h.symm)

/-- Inside the visited window, an illegal index is `-∞` and a legal
index is untouched. -/
theorem maskAux_getD_in (board : Board) (c : Color) :
    ∀ (fuel i : Nat) (p : List GFloat) (k : Nat), i ≤ k → k < i + fuel →
      k < p.length →
      (maskAux board c fuel i p).getD k .negInf =
        if board.isValid c (coordX k) (coordY k) = true then p.getD k .negInf
        else .negInf := by
  intro fuel
  induction fuel with
  | zero => intro i p k h1 h2 _; omega
  | succ n ih =>
      intro i p k h1 h2 hk
      simp only [maskAux]
      by_cases hik : k = i
      · subst hik
        by_cases hv : board.isValid c (coordX k) (coordY k) = true
        · simp only [hv, if_true]
          rw [maskAux_getD_out board c n (k + 1) p k (by omega)]
        · simp only [Bool.not_eq_true] at hv
          simp only [hv, Bool.false_eq_true, if_false]
          rw [maskAux_getD_out board c n (k + 1) (p.set k .negInf) k (by omega)]
          exact getD_set_self p .negInf .negInf hk
      · have h1' : i + 1 ≤ k := by omega
        by_cases hv : board.isValid c (coordX i) (coordY i) = true
        · simp only [hv, if_true]
          exact ih (i + 1) p k h1' (by omega) hk
        · simp only [Bool.not_eq_true] at hv
          simp only [hv, Bool.false_eq_true, if_false]
          rw [ih (i + 1) (p.set i .negInf) k h1' (by omega) (by simp [hk])]
          rw [getD_set_ne p .negInf .negInf (fun h => hik h.symm)]

theorem maskIllegal_length (board : Board) (c : Color) (p : List GFloat) :
    (maskIllegal board c p).length = p.length :=
  maskAux_length board c 361 0 p

/-- A board on which every move is legal is not changed by masking. -/
theorem maskIllegal_allValid (board : Board) (c : Color) (p : List GFloat)
    (h : ∀ x y, board.isValid c x y = true) :
    maskIllegal board c p = p := by
  apply List.ext_getElem (maskIllegal_length board c p)
  intro n h1 h2
  have h3 : (maskIllegal board c p).getD n .negInf = p.getD n .negInf := by
    by_cases hn : n < 361
    · rw [maskIllegal, maskAux_getD_in board c 361 0 p n (by omega) (by omega) h2]
      simp [h (coordX n) (coordY n)]
    · exact maskAux_getD_out board c 361 0 p n (by omega)
  simpa [List.getD, List.getElem?_eq_getElem, h1, h2] using h3

/-- C5: after the legality-masking step, every index in `0..361` whose
move is illegal for the color to move holds `-∞`; a legal index keeps
its value; the pass index 361 is never touched by the masking step, so
whenever the evaluator gave the pass move a value other than `-∞`, a
selectable move remains after masking. -/
theorem forward_masking (board : Board) (c : Color) (p : List GFloat)
    (hlen : p.length = 362) :
    (∀ i, i < 361 → board.isValid c (coordX i) (coordY i) = false →
      (maskIllegal board c p).getD i .negInf = .negInf) ∧
    (∀ i, i < 361 → board.isValid c (coordX i) (coordY i) = true →
      (maskIllegal board c p).getD i .negInf = p.getD i .negInf) ∧
    (maskIllegal board c p).getD 361 .negInf = p.getD 361 .negInf ∧
    (p.getD 361 .negInf ≠ .negInf →
      (maskIllegal board c p).getD 361 .negInf ≠ .negInf) := by
  have hout : (maskIllegal board c p).getD 361 .negInf = p.getD 361 .negInf :=
    maskAux_getD_out board c 361 0 p 361 (by omega)
  refine ⟨?_, ?_, hout, ?_⟩
  · intro i hi hv
    rw [maskIllegal, maskAux_getD_in board c 361 0 p i (by omega) (by omega) (by omega)]
    simp [hv]
  · intro i hi hv
    rw [maskIllegal, maskAux_getD_in board c 361 0 p i (by omega) (by omega) (by omega)]
    simp [hv]
  · intro hne
    rw [hout]
    exact hne

/-- Witness for C5 at a concrete board and policy: on a board whose
only legal moves are in the leftmost column, masking pushes index 20
(an illegal move) to `-∞` while the pass entry keeps its value. -/
theorem forward_masking_witness :
    zeroPolicy.length = 362 ∧
    (maskIllegal fullBoard .black zeroPolicy).getD 20 .negInf = .negInf ∧
    (maskIllegal fullBoard .black zeroPolicy).getD 361 .negInf = .sub 0 := by
  have h := forward_masking fullBoard .black zeroPolicy (by simp [zeroPolicy])
  refine ⟨by simp [zeroPolicy], h.1 20 (by omega) (by rfl), ?_⟩
  rw [h.2.2.1]
  rfl

/-! ## The symmetry-merge step: case analysis of one loop body -/

theorem mergeStep_skip (t : Transform) (i : Nat) (visited : List Bool)
    (p : List GFloat) (h : ¬(i ≠ t.apply i ∧ visited.getD i true = false)) :
    mergeStep t i visited p = .ok (visited, p) := by
  simp only [mergeStep]
  rw [if_neg h]

theorem mergeStep_nosrc (t : Transform) (i : Nat) (visited : List Bool)
    (p : List GFloat) (hc : i ≠ t.apply i ∧ visited.getD i true = false)
    (hsrc : (p.getD (max i (t.apply i)) .negInf).isNormal = false) :
    mergeStep t i visited p =
      .ok ((visited.set i true).set (t.apply i) true, p) := by
  simp only [mergeStep]
  rw [if_pos hc, if_neg (by rw [hsrc]; simp)]

theorem mergeStep_merge (t : Transform) (i : Nat) (visited : List Bool)
    (p : List GFloat) (hc : i ≠ t.apply i ∧ visited.getD i true = false)
    (hsrc : (p.getD (max i (t.apply i)) .negInf).isNormal = true)
    (hdst : (p.getD (min i (t.apply i)) .negInf).isNormal = true) :
    mergeStep t i visited p =
      .ok ((visited.set i true).set (t.apply i) true,
        (p.set (min i (t.apply i))
          ((p.getD (min i (t.apply i)) .negInf).add
            (p.getD (max i (t.apply i)) .negInf))).set (max i (t.apply i))
          .negInf) := by
  simp only [mergeStep]
  rw [if_pos hc, if_pos hsrc, if_pos hdst]

theorem mergeStep_panic (t : Transform) (i : Nat) (visited : List Bool)
    (p : List GFloat) (hc : i ≠ t.apply i ∧ visited.getD i true = false)
    (hsrc : (p.getD (max i (t.apply i)) .negInf).isNormal = true)
    (hdst : (p.getD (min i (t.apply i)) .negInf).isNormal = false) :
    mergeStep t i visited p = .error .assertFailed := by
  simp only [mergeStep]
  rw [if_pos hc, if_pos hsrc, if_neg (by rw [hdst]; simp)]

theorem mergePassAux_succ (t : Transform) (fuel i : Nat) (visited : List Bool)
    (p : List GFloat) :
    mergePassAux t (fuel + 1) i visited p =
      match mergeStep t i visited p with
      | .error e => .error e
      | .ok (v', p') => mergePassAux t fuel (i + 1) v' p' := rfl

/-- A completed merge pass never changes the length of the policy. -/
theorem mergePassAux_length (t : Transform) :
    ∀ (fuel i : Nat) (visited : List Bool) (p p' : List GFloat),
      mergePassAux t fuel i visited p = .ok p' → p'.length = p.length := by
  intro fuel
  induction fuel with
  | zero =>
      intro i visited p p' h
      simp only [mergePassAux] at h
      cases h
      rfl
  | succ n ih =>
      intro i visited p p' h
      rw [mergePassAux_succ] at h
      by_cases hc : i ≠ t.apply i ∧ visited.getD i true = false
      · by_cases hsrc : (p.getD (max i (t.apply i)) .negInf).isNormal = true
        · by_cases hdst : (p.getD (min i (t.apply i)) .negInf).isNormal = true
          · rw [mergeStep_merge t i visited p hc hsrc hdst] at h
            have := ih (i + 1) _ _ p' h
            simpa using this
          · rw [mergeStep_panic t i visited p hc hsrc
              (by simpa using hdst)] at h
            cases h
        · rw [mergeStep_nosrc t i visited p hc (by simpa using hsrc)] at h
          exact ih (i + 1) _ _ p' h
      · rw [mergeStep_skip t i visited p hc] at h
        exact ih (i + 1) _ _ p' h

/-- If no board entry below 361 is normal, a merge pass does nothing. -/
theorem mergePassAux_noop (t : Transform) :
    ∀ (fuel i : Nat) (visited : List Bool) (p : List GFloat),
      i + fuel ≤ 361 →
      (∀ k, k < 361 → (p.getD k .negInf).isNormal = false) →
      mergePassAux t fuel i visited p = .ok p := by
  intro fuel
  induction fuel with
  | zero => intro i visited p _ _; rfl
  | succ n ih =>
      intro i visited p hif hnn
      rw [mergePassAux_succ]
      have hi : i < 361 := by omega
      by_cases hc : i ≠ t.apply i ∧ visited.getD i true = false
      · have hsrc : (p.getD (max i (t.apply i)) .negInf).isNormal = false := by
          apply hnn
          have := apply_lt t i hi
          omega
        rw [mergeStep_nosrc t i visited p hc hsrc]
        exact ih (i + 1) _ p (by omega) hnn
      · rw [mergeStep_skip t i visited p hc]
        exact ih (i + 1) _ p (by omega) hnn

/-- A merge pass writes only to entries it has observed to be normal:
every non-normal entry of the input policy is untouched by a completed
pass.  In particular an entry equal to `0.0` is neither merged away nor
set to `-∞`. -/
theorem mergePassAux_abs (t : Transform) :
    ∀ (fuel i : Nat) (visited : List Bool) (p p' : List GFloat),
      mergePassAux t fuel i visited p = .ok p' →
      ∀ k, (p.getD k .negInf).isNormal = false →
        p'.getD k .negInf = p.getD k .negInf := by
  intro fuel
  induction fuel with
  | zero =>
      intro i visited p p' h k _
      simp only [mergePassAux] at h
      cases h
      rfl
  | succ n ih =>
      intro i visited p p' h k hk
      rw [mergePassAux_succ] at h
      by_cases hc : i ≠ t.apply i ∧ visited.getD i true = false
      · by_cases hsrc : (p.getD (max i (t.apply i)) .negInf).isNormal = true
        · by_cases hdst : (p.getD (min i (t.apply i)) .negInf).isNormal = true
          · rw [mergeStep_merge t i visited p hc hsrc hdst] at h
            have hkd : k ≠ min i (t.apply i) := by
              intro he
              rw [he, hdst] at hk
              cases hk
            have hks : k ≠ max i (t.apply i) := by
              intro he
              rw [he, hsrc] at hk
              cases hk
            have hval :
                ((p.set (min i (t.apply i))
                  ((p.getD (min i (t.apply i)) .negInf).add
                    (p.getD (max i (t.apply i)) .negInf))).set
                  (max i (t.apply i)) .negInf).getD k .negInf
                  = p.getD k .negInf := by
              rw [getD_set_ne _ _ _ (fun he => hks he.symm),
                getD_set_ne _ _ _ (fun he => hkd he.symm)]
            have := ih (i + 1) _ _ p' h k (by rw [hval]; exact hk)
            rw [this, hval]
          · rw [mergeStep_panic t i visited p hc hsrc
              (by simpa using hdst)] at h
            cases h
        · rw [mergeStep_nosrc t i visited p hc (by simpa using hsrc)] at h
          exact ih (i + 1) _ _ p' h k hk
      · rw [mergeStep_skip t i visited p hc] at h
        exact ih (i + 1) _ _ p' h k hk

/-- A merge pass keeps every entry `-∞`-or-positive-normal if the input
policy was. -/
theorem mergePassAux_pni (t : Transform) :
    ∀ (fuel i : Nat) (visited : List Bool) (p p' : List GFloat),
      mergePassAux t fuel i visited p = .ok p' →
      posNormalPolicy p → posNormalPolicy p' := by
  intro fuel
  induction fuel with
  | zero =>
      intro i visited p p' h hp
      simp only [mergePassAux] at h
      cases h
      exact hp
  | succ n ih =>
      intro i visited p p' h hp
      rw [mergePassAux_succ] at h
      by_cases hc : i ≠ t.apply i ∧ visited.getD i true = false
      · by_cases hsrc : (p.getD (max i (t.apply i)) .negInf).isNormal = true
        · by_cases hdst : (p.getD (min i (t.apply i)) .negInf).isNormal = true
          · rw [mergeStep_merge t i visited p hc hsrc hdst] at h
            refine ih (i + 1) _ _ p' h ?_
            intro k
            by_cases hks : k = max i (t.apply i)
            · left
              have hlt : max i (t.apply i) < p.length := lt_length_of_isNormal hsrc
              rw [hks, getD_set_self _ _ _ (by simpa using hlt)]
            · rw [getD_set_ne _ _ _ (fun he => hks he.symm)]
              by_cases hkd : k = min i (t.apply i)
              · right
                obtain ⟨qd, hqd, hed⟩ :=
                  (hp (min i (t.apply i))).resolve_left (by
                    intro he
                    rw [he] at hdst
                    cases hdst)
                obtain ⟨qs, hqs, hes⟩ :=
                  (hp (max i (t.apply i))).resolve_left (by
                    intro he
                    rw [he] at hsrc
                    cases hsrc)
                have hlt : min i (t.apply i) < p.length := lt_length_of_isNormal hdst
                rw [hkd, getD_set_self _ _ _ hlt, hed, hes]
                refine ⟨qd + qs, by positivity, ?_⟩
                simp only [GFloat.add]
                rw [if_neg (by positivity)]
              · rw [getD_set_ne _ _ _ (fun he => hkd he.symm)]
                exact hp k
          · rw [mergeStep_panic t i visited p hc hsrc
              (by simpa using hdst)] at h
            cases h
        · rw [mergeStep_nosrc t i visited p hc (by simpa using hsrc)] at h
          exact ih (i + 1) _ _ p' h hp
      · rw [mergeStep_skip t i visited p hc] at h
        exact ih (i + 1) _ _ p' h hp

/-- The heart of claim C3: after one completed merge pass for a
transform `t`, every pair of indices that `t` maps onto each other has
at most one normal entry left.  `visited` and the policy carry the two
loop invariants: every still-unprocessed index already marked visited
is non-normal, and every pair below the loop counter already satisfies
the conclusion. -/
theorem mergePassAux_pair (t : Transform) :
    ∀ (fuel i : Nat) (visited : List Bool) (p p' : List GFloat),
      i + fuel = 361 →
      (∀ k, i ≤ k → visited.getD k true = true →
        (p.getD k .negInf).isNormal = false) →
      (∀ a, a < i → t.apply a ≠ a →
        ¬((p.getD a .negInf).isNormal = true ∧
          (p.getD (t.apply a) .negInf).isNormal = true)) →
      mergePassAux t fuel i visited p = .ok p' →
      ∀ a, a < 361 → t.apply a ≠ a →
        ¬((p'.getD a .negInf).isNormal = true ∧
          (p'.getD (t.apply a) .negInf).isNormal = true) := by
  intro fuel
  induction fuel with
  | zero =>
      intro i visited p p' hif hv hq h a ha hta
      simp only [mergePassAux] at h
      cases h
      exact hq a (by omega) hta
  | succ n ih =>
      intro i visited p p' hif hv hq h
      have hi : i < 361 := by omega
      rw [mergePassAux_succ] at h
      by_cases hc : i ≠ t.apply i ∧ visited.getD i true = false
      · by_cases hsrc : (p.getD (max i (t.apply i)) .negInf).isNormal = true
        · by_cases hdst : (p.getD (min i (t.apply i)) .negInf).isNormal = true
          · -- the pair at the loop counter is merged: max goes to -inf
            rw [mergeStep_merge t i visited p hc hsrc hdst] at h
            set P1 := (p.set (min i (t.apply i))
                ((p.getD (min i (t.apply i)) .negInf).add
                  (p.getD (max i (t.apply i)) .negInf))).set (max i (t.apply i))
                .negInf with hP1
            have hM : P1.getD (max i (t.apply i)) .negInf = .negInf := by
              rw [hP1]
              exact getD_set_self _ _ _ (by simpa using lt_length_of_isNormal hsrc)
            have hother : ∀ k, k ≠ min i (t.apply i) → k ≠ max i (t.apply i) →
                P1.getD k .negInf = p.getD k .negInf := by
              intro k hkm hkM
              rw [hP1, getD_set_ne _ _ _ (fun he => hkM he.symm),
                getD_set_ne _ _ _ (fun he => hkm he.symm)]
            refine ih (i + 1) _ _ p' (by omega) ?_ ?_ h
            · -- marked invariant for the new state
              intro k hk hmk
              have hki : k ≠ i := by omega
              by_cases hkj : k = t.apply i
              · have hij : i ≤ t.apply i := by omega
                have hMj : P1.getD (t.apply i) .negInf = .negInf := by
                  rw [← Nat.max_eq_right hij]
                  exact hM
                rw [hkj, hMj]
                rfl
              · have hkM : k ≠ max i (t.apply i) := by omega
                have hkm : k ≠ min i (t.apply i) := by omega
                rw [hother k hkm hkM]
                refine hv k (by omega) ?_
                rw [getD_set_ne _ _ _ (fun he => hkj he.symm),
                  getD_set_ne _ _ _ (fun he => hki he.symm)] at hmk
                exact hmk
            · -- pair invariant for the new state
              intro a ha hta
              by_cases hai : a = i
              · subst hai
                rintro ⟨h1, h2⟩
                rcases Nat.le_total a (t.apply a) with hle | hle
                · have hMj : P1.getD (t.apply a) .negInf = .negInf := by
                    rw [← Nat.max_eq_right hle]
                    exact hM
                  rw [hMj] at h2
                  cases h2
                · have hMa : P1.getD a .negInf = .negInf := by
                    rw [← Nat.max_eq_left hle]
                    exact hM
                  rw [hMa] at h1
                  cases h1
              · have ha' : a < i := by omega
                rintro ⟨h1, h2⟩
                by_cases haM : a = max i (t.apply i)
                · have : P1.getD a .negInf = .negInf := by rw [haM]; exact hM
                  rw [this] at h1
                  cases h1
                by_cases htaM : t.apply a = max i (t.apply i)
                · have : P1.getD (t.apply a) .negInf = .negInf := by
                    rw [htaM]; exact hM
                  rw [this] at h2
                  cases h2
                by_cases ham : a = min i (t.apply i)
                · -- a is the merge destination: still normal, but its partner
                  -- was already non-normal before the step
                  have hta' : t.apply a ≠ min i (t.apply i) := by
                    rw [← ham]
                    exact hta
                  rw [hother (t.apply a) hta' htaM] at h2
                  refine hq a ha' hta ⟨?_, h2⟩
                  rw [ham]
                  exact hdst
                · rw [hother a ham haM] at h1
                  by_cases htam : t.apply a = min i (t.apply i)
                  · refine hq a ha' hta ⟨h1, ?_⟩
                    rw [htam]
                    exact hdst
                  · rw [hother (t.apply a) htam htaM] at h2
                    exact hq a ha' hta ⟨h1, h2⟩
          · rw [mergeStep_panic t i visited p hc hsrc (by simpa using hdst)] at h
            cases h
        · -- source not normal: the pair is marked but nothing moves
          rw [mergeStep_nosrc t i visited p hc (by simpa using hsrc)] at h
          refine ih (i + 1) _ _ p' (by omega) ?_ ?_ h
          · intro k hk hmk
            have hki : k ≠ i := by omega
            by_cases hkj : k = t.apply i
            · have hij : i ≤ t.apply i := by omega
              have hsrc' := hsrc
              rw [Nat.max_eq_right hij] at hsrc'
              rw [hkj]
              simpa using hsrc'
            · refine hv k (by omega) ?_
              rw [getD_set_ne _ _ _ (fun he => hkj he.symm),
                getD_set_ne _ _ _ (fun he => hki he.symm)] at hmk
              exact hmk
          · intro a ha hta
            by_cases hai : a = i
            · subst hai
              rintro ⟨h1, h2⟩
              rcases Nat.le_total a (t.apply a) with hle | hle
              · rw [Nat.max_eq_right hle] at hsrc
                exact hsrc h2
              · rw [Nat.max_eq_left hle] at hsrc
                exact hsrc h1
            · exact hq a (by omega) hta
      · -- loop body skipped: i is its own image or already visited
        rw [mergeStep_skip t i visited p hc] at h
        refine ih (i + 1) _ _ p' (by omega) (fun k hk hmk => hv k (by omega) hmk) ?_ h
        intro a ha hta
        by_cases hai : a = i
        · subst hai
          push_neg at hc
          rintro ⟨h1, _⟩
          have hvm : visited.getD a true = true := by
            rcases Bool.eq_false_or_eq_true (visited.getD a true) with hb | hb
            · exact hb
            · exact absurd hb (hc (fun he => hta he.symm))
          have := hv a (le_refl a) hvm
          rw [this] at h1
          cases h1
        · exact hq a (by omega) hta

/-- For an involutive transform, a pair whose larger entry is normal
and whose smaller entry is not normal at the start of the pass is
reached intact, and the `assert!` fails: the pass panics.  (`a` names
either member of the bad pair; the loop has not passed its smaller
member yet, which is unvisited.) -/
theorem mergePassAux_panic (t : Transform)
    (hinv : ∀ a, a < 361 → t.apply (t.apply a) = a)
    (happ : ∀ a, a < 361 → t.apply a < 361) :
    ∀ (fuel i : Nat) (visited : List Bool) (p : List GFloat) (a : Nat),
      i + fuel = 361 → a < 361 → t.apply a ≠ a →
      i ≤ min a (t.apply a) →
      visited.getD (min a (t.apply a)) true = false →
      (p.getD (max a (t.apply a)) .negInf).isNormal = true →
      (p.getD (min a (t.apply a)) .negInf).isNormal = false →
      mergePassAux t fuel i visited p = .error .assertFailed := by
  intro fuel
  induction fuel with
  | zero =>
      intro i visited p a hif ha hta him _ _ _
      have h1 : min a (t.apply a) ≤ a := Nat.min_le_left _ _
      omega
  | succ n ih =>
      intro i visited p a hif ha hta him hvis hbadM hbadm
      have hta361 : t.apply a < 361 := happ a ha
      rw [mergePassAux_succ]
      by_cases hieq : i = min a (t.apply a)
      · -- the loop reaches the smaller member of the bad pair: the source
        -- is normal, the destination is not, the assertion fails
        have htieq : t.apply i = max a (t.apply a) := by
          rcases Nat.le_total a (t.apply a) with hle | hle
          · rw [Nat.min_eq_left hle] at hieq
            rw [Nat.max_eq_right hle, hieq]
          · rw [Nat.min_eq_right hle] at hieq
            rw [Nat.max_eq_left hle, hieq, hinv a ha]
        have hine : i ≠ t.apply i := by
          rw [htieq, hieq]
          omega
        have hstep := mergeStep_panic t i visited p
          ⟨hine, by rw [hieq]; exact hvis⟩ ?hsrc ?hdst
        case hsrc =>
          have hmx : max i (t.apply i) = max a (t.apply a) := by
            rw [htieq, hieq]
            omega
          rw [hmx]
          exact hbadM
        case hdst =>
          have hmn : min i (t.apply i) = min a (t.apply a) := by
            rw [htieq, hieq]
            omega
          rw [hmn]
          exact hbadm
        rw [hstep]
      · -- the loop is still below the bad pair; whatever the body does, it
        -- cannot touch the pair, whose members form their own orbit
        have hilt : i < min a (t.apply a) := by omega
        have hi361 : i < 361 := by omega
        have hdisj : i ≠ min a (t.apply a) ∧ i ≠ max a (t.apply a) ∧
            t.apply i ≠ min a (t.apply a) ∧ t.apply i ≠ max a (t.apply a) := by
          refine ⟨by omega, by omega, ?_, ?_⟩
          · intro he
            have h1 : t.apply (t.apply i) = t.apply (min a (t.apply a)) := by rw [he]
            have h2 : t.apply (min a (t.apply a)) = max a (t.apply a) := by
              rcases Nat.le_total a (t.apply a) with hle | hle
              · rw [Nat.min_eq_left hle, Nat.max_eq_right hle]
              · rw [Nat.min_eq_right hle, Nat.max_eq_left hle, hinv a ha]
            rw [hinv i hi361, h2] at h1
            omega
          · intro he
            have h1 : t.apply (t.apply i) = t.apply (max a (t.apply a)) := by rw [he]
            have h2 : t.apply (max a (t.apply a)) = min a (t.apply a) := by
              rcases Nat.le_total a (t.apply a) with hle | hle
              · rw [Nat.max_eq_right hle, Nat.min_eq_left hle, hinv a ha]
              · rw [Nat.max_eq_left hle, Nat.min_eq_right hle]
            rw [hinv i hi361, h2] at h1
            omega
        by_cases hc : i ≠ t.apply i ∧ visited.getD i true = false
        · by_cases hsrc : (p.getD (max i (t.apply i)) .negInf).isNormal = true
          · by_cases hdst : (p.getD (min i (t.apply i)) .negInf).isNormal = true
            · rw [mergeStep_merge t i visited p hc hsrc hdst]
              have hmm : min i (t.apply i) ≠ min a (t.apply a) ∧
                  min i (t.apply i) ≠ max a (t.apply a) ∧
                  max i (t.apply i) ≠ min a (t.apply a) ∧
                  max i (t.apply i) ≠ max a (t.apply a) := by
                obtain ⟨d1, d2, d3, d4⟩ := hdisj
                constructor
                · rcases Nat.le_total i (t.apply i) with hle | hle
                  · rw [Nat.min_eq_left hle]; exact d1
                  · rw [Nat.min_eq_right hle]; exact d3
                constructor
                · rcases Nat.le_total i (t.apply i) with hle | hle
                  · rw [Nat.min_eq_left hle]; exact d2
                  · rw [Nat.min_eq_right hle]; exact d4
                constructor
                · rcases Nat.le_total i (t.apply i) with hle | hle
                  · rw [Nat.max_eq_right hle]; exact d3
                  · rw [Nat.max_eq_left hle]; exact d1
                · rcases Nat.le_total i (t.apply i) with hle | hle
                  · rw [Nat.max_eq_right hle]; exact d4
                  · rw [Nat.max_eq_left hle]; exact d2
              refine ih (i + 1) _ _ a (by omega) ha hta (by omega) ?_ ?_ ?_
              · rw [getD_set_ne _ _ _ (fun he => hdisj.2.2.1 he),
                  getD_set_ne _ _ _ (fun he => hdisj.1 he)]
                exact hvis
              · rw [getD_set_ne _ _ _ (fun he => hmm.2.2.2 he),
                  getD_set_ne _ _ _ (fun he => hmm.2.1 he)]
                exact hbadM
              · rw [getD_set_ne _ _ _ (fun he => hmm.2.2.1 he),
                  getD_set_ne _ _ _ (fun he => hmm.1 he)]
                exact hbadm
            · rw [mergeStep_panic t i visited p hc hsrc (by simpa using hdst)]
          · rw [mergeStep_nosrc t i visited p hc (by simpa using hsrc)]
            refine ih (i + 1) _ _ a (by omega) ha hta (by omega) ?_ hbadM hbadm
            rw [getD_set_ne _ _ _ (fun he => hdisj.2.2.1 he),
              getD_set_ne _ _ _ (fun he => hdisj.1 he)]
            exact hvis
        · rw [mergeStep_skip t i visited p hc]
          exact ih (i + 1) _ _ a (by omega) ha hta (by omega) hvis hbadM hbadm

/-! ## Lifting the pass lemmas through the transform loop -/

theorem mergePass_length (board : Board) (t : Transform) (p p' : List GFloat)
    (h : mergePass board t p = .ok p') : p'.length = p.length := by
  rw [mergePass] at h
  split at h
  · exact mergePassAux_length t 361 0 _ p p' h
  · cases h
    rfl

theorem mergePass_abs (board : Board) (t : Transform) (p p' : List GFloat)
    (h : mergePass board t p = .ok p') :
    ∀ k, (p.getD k .negInf).isNormal = false →
      p'.getD k .negInf = p.getD k .negInf := by
  rw [mergePass] at h
  split at h
  · exact mergePassAux_abs t 361 0 _ p p' h
  · cases h
    intro k _
    rfl

theorem mergePass_pni (board : Board) (t : Transform) (p p' : List GFloat)
    (h : mergePass board t p = .ok p') :
    posNormalPolicy p → posNormalPolicy p' := by
  rw [mergePass] at h
  split at h
  · exact mergePassAux_pni t 361 0 _ p p' h
  · cases h
    exact id

/-- One completed pass for a symmetric transform leaves at most one
normal entry in every pair the transform maps onto each other. -/
theorem mergePass_pair (board : Board) (t : Transform) (p p' : List GFloat)
    (hlen : p.length ≤ 362)
    (hsym : board.isSymmetric t = true)
    (h : mergePass board t p = .ok p') :
    ∀ a, a < 361 → t.apply a ≠ a →
      ¬((p'.getD a .negInf).isNormal = true ∧
        (p'.getD (t.apply a) .negInf).isNormal = true) := by
  rw [mergePass, if_pos hsym] at h
  refine mergePassAux_pair t 361 0 _ p p' (by omega) ?_ (by omega) h
  intro k _ hmk
  by_cases hk : k < 368
  · have hrep : (List.replicate 368 false).getD k true = false := by
      rw [List.getD, List.get?_eq_getElem?, List.getElem?_replicate, if_pos hk]
      rfl
    rw [hrep] at hmk
    cases hmk
  · rw [getD_of_le_length p .negInf (by omega)]
    rfl

theorem mergeFold_length (board : Board) :
    ∀ (ts : List Transform) (p p' : List GFloat),
      mergeFold board ts p = .ok p' → p'.length = p.length := by
  intro ts
  induction ts with
  | nil =>
      intro p p' h
      cases h
      rfl
  | cons t ts ih =>
      intro p p' h
      rw [mergeFold] at h
      cases hp : mergePass board t p with
      | error e => rw [hp] at h; cases h
      | ok p1 =>
          rw [hp] at h
          rw [ih p1 p' h, mergePass_length board t p p1 hp]

theorem mergeFold_abs (board : Board) :
    ∀ (ts : List Transform) (p p' : List GFloat),
      mergeFold board ts p = .ok p' →
      ∀ k, (p.getD k .negInf).isNormal = false →
        p'.getD k .negInf = p.getD k .negInf := by
  intro ts
  induction ts with
  | nil =>
      intro p p' h k _
      cases h
      rfl
  | cons t ts ih =>
      intro p p' h k hk
      rw [mergeFold] at h
      cases hp : mergePass board t p with
      | error e => rw [hp] at h; cases h
      | ok p1 =>
          rw [hp] at h
          have h1 := mergePass_abs board t p p1 hp k hk
          have h2 := ih p1 p' h k (by rw [h1]; exact hk)
          rw [h2, h1]

theorem mergeFold_pni (board : Board) :
    ∀ (ts : List Transform) (p p' : List GFloat),
      mergeFold board ts p = .ok p' →
      posNormalPolicy p → posNormalPolicy p' := by
  intro ts
  induction ts with
  | nil =>
      intro p p' h hp
      cases h
      exact hp
  | cons t ts ih =>
      intro p p' h hp
      rw [mergeFold] at h
      cases hq : mergePass board t p with
      | error e => rw [hq] at h; cases h
      | ok p1 =>
          rw [hq] at h
          exact ih p1 p' h (mergePass_pni board t p p1 hq hp)

/-- If no entry below 361 is normal, the whole merge loop is the
identity. -/
theorem mergeFold_noop (board : Board) :
    ∀ (ts : List Transform) (p : List GFloat),
      (∀ k, k < 361 → (p.getD k .negInf).isNormal = false) →
      mergeFold board ts p = .ok p := by
  intro ts
  induction ts with
  | nil => intro p _; rfl
  | cons t ts ih =>
      intro p hnn
      rw [mergeFold]
      have hp : mergePass board t p = .ok p := by
        rw [mergePass]
        split
        · exact mergePassAux_noop t 361 0 _ p (by omega) hnn
        · rfl
      rw [hp]
      exact ih p hnn

/-- After the whole merge loop, every pair of a transform the board is
symmetric under has at most one normal entry. -/
theorem mergeFold_pair (board : Board) (t : Transform) :
    ∀ (ts : List Transform) (p p' : List GFloat),
      mergeFold board ts p = .ok p' →
      p.length ≤ 362 →
      t ∈ ts →
      board.isSymmetric t = true →
      ∀ a, a < 361 → t.apply a ≠ a →
        ¬((p'.getD a .negInf).isNormal = true ∧
          (p'.getD (t.apply a) .negInf).isNormal = true) := by
  intro ts
  induction ts with
  | nil =>
      intro p p' _ _ hmem
      cases hmem
  | cons t' ts ih =>
      intro p p' h hlen hmem hsym a ha hta
      rw [mergeFold] at h
      cases hp : mergePass board t' p with
      | error e => rw [hp] at h; cases h
      | ok p1 =>
          rw [hp] at h
          rcases List.mem_cons.mp hmem with heq | hmem'
          · subst heq
            have hq := mergePass_pair board t p p1 hlen hsym hp a ha hta
            rintro ⟨h1, h2⟩
            by_cases hn : (p1.getD a .negInf).isNormal = true
            · have hn2 : (p1.getD (t.apply a) .negInf).isNormal = false := by
                rcases Bool.eq_false_or_eq_true
                    ((p1.getD (t.apply a) .negInf).isNormal) with hb | hb
                · exact absurd ⟨hn, hb⟩ hq
                · exact hb
              have := mergeFold_abs board ts p1 p' h (t.apply a) hn2
              rw [this, hn2] at h2
              cases h2
            · have hn' : (p1.getD a .negInf).isNormal = false := by
                rcases Bool.eq_false_or_eq_true ((p1.getD a .negInf).isNormal)
                    with hb | hb
                · exact absurd hb hn
                · exact hb
              have := mergeFold_abs board ts p1 p' h a hn'
              rw [this, hn'] at h1
              cases h1
          · have hlen1 : p1.length ≤ 362 := by
              rw [mergePass_length board t' p p1 hp]
              exact hlen
            exact ih p1 p' h hlen1 hmem' hsym a ha hta

/-! ## Claims C3 and C10 -/

theorem zeroPolicy_nonNormal : ∀ k, ((zeroPolicy.getD k .negInf).isNormal) = false := by
  intro k
  by_cases hk : k < 362
  · rw [zeroPolicy, List.getD, List.get?_eq_getElem?, List.getElem?_replicate,
      if_pos hk]
    rfl
  · rw [getD_of_le_length zeroPolicy .negInf
      (by simp only [zeroPolicy, List.length_replicate]; omega)]
    rfl

/-- Renormalization is skipped when nothing is normal: the surviving
mass is zero, below the floor. -/
theorem renormalize_nonNormal (p : List GFloat)
    (h : ∀ x ∈ p, x.isNormal = false) : renormalize p = p := by
  have hf : p.filter (fun x => x.isNormal) = [] := by
    rw [List.filter_eq_nil_iff]
    intro a ha
    rw [h a ha]
    simp
  have hsum : normalSum p = 0 := by
    rw [normalSum, hf]
    rfl
  rw [renormalize]
  simp only [hsum]
  rw [if_neg (by norm_num)]

/-- C3 — counterexample.  On the fully symmetric empty board with the
all-zero evaluator policy, the augmented forward pass completes and
returns the policy unchanged: the FlipLR transform leaves the board
invariant and maps 8 and 10 onto each other, yet the larger index 10 is
not set to `-∞` (its entry `0.0` is not normal, so the merge skips the
pair), no mass is added into index 8, and the pair ends with two finite
entries rather than exactly one. -/
theorem merge_symmetric_pair_cex :
    forwardPolicy emptyBoard .black zeroPolicy = .ok zeroPolicy ∧
    emptyBoard.isSymmetric .flipLR = true ∧
    Transform.flipLR ∈ SYMM.tail ∧
    Transform.flipLR.apply 8 = 10 ∧
    zeroPolicy.getD 10 .negInf ≠ .negInf ∧
    zeroPolicy.getD 8 .negInf = .sub 0 ∧
    zeroPolicy.getD 8 .negInf ≠ .negInf := by
  have hmask : maskIllegal emptyBoard .black zeroPolicy = zeroPolicy :=
    maskIllegal_allValid _ _ _ (fun _ _ => rfl)
  have hmerge : mergeSymmetries emptyBoard zeroPolicy = .ok zeroPolicy :=
    mergeFold_noop _ _ _ (fun k _ => zeroPolicy_nonNormal k)
  have hren : renormalize zeroPolicy = zeroPolicy := by
    refine renormalize_nonNormal _ ?_
    intro x hx
    rw [List.eq_of_mem_replicate hx]
    rfl
  refine ⟨?_, rfl, by decide, by decide, by decide, by decide, by decide⟩
  rw [forwardPolicy, hmask, hmerge, Except.map, hren]

/-- C3 — amended.  The merge combines a pair only if the larger entry
is normal and the pair is first-visited in its pass, so the right
postcondition is an upper bound: after a completed merge, every pair of
indices mapped onto each other by a transform the board is invariant
under retains at most one normal entry, and — when the evaluator policy
was everywhere `-∞`-or-positive-normal — at most one entry different
from `-∞`. -/
theorem merge_symmetric_pair_amended (board : Board) (p p' : List GFloat)
    (t : Transform) (i : Nat)
    (h : mergeSymmetries board p = .ok p')
    (hlen : p.length = 362)
    (hsym : board.isSymmetric t = true)
    (ht : t ∈ SYMM.tail)
    (hi : i < 361) (hne : t.apply i ≠ i) :
    ¬((p'.getD i .negInf).isNormal = true ∧
      (p'.getD (t.apply i) .negInf).isNormal = true) ∧
    (posNormalPolicy p →
      ¬(p'.getD i .negInf ≠ .negInf ∧ p'.getD (t.apply i) .negInf ≠ .negInf)) := by
  have hpair := mergeFold_pair board t SYMM.tail p p' h (by omega) ht hsym i hi hne
  refine ⟨hpair, ?_⟩
  intro hpni
  have hpni' := mergeFold_pni board SYMM.tail p p' h hpni
  rintro ⟨h1, h2⟩
  have hn1 : (p'.getD i .negInf).isNormal = true := by
    rcases hpni' i with he | ⟨q, _, he⟩
    · exact absurd he h1
    · rw [he]; rfl
  have hn2 : (p'.getD (t.apply i) .negInf).isNormal = true := by
    rcases hpni' (t.apply i) with he | ⟨q, _, he⟩
    · exact absurd he h2
    · rw [he]; rfl
  exact hpair ⟨hn1, hn2⟩

/-- Witness for the amended C3 at a concrete input: the board invariant
under FlipLR only and the all-zero policy, for the pair `(8, 10)`. -/
theorem merge_symmetric_pair_amended_witness :
    mergeSymmetries lrBoard zeroPolicy = .ok zeroPolicy ∧
    ¬((zeroPolicy.getD 8 .negInf).isNormal = true ∧
      (zeroPolicy.getD (Transform.flipLR.apply 8) .negInf).isNormal = true) := by
  have hok : mergeSymmetries lrBoard zeroPolicy = .ok zeroPolicy :=
    mergeFold_noop _ _ _ (fun k _ => zeroPolicy_nonNormal k)
  exact ⟨hok, (merge_symmetric_pair_amended lrBoard zeroPolicy zeroPolicy
    .flipLR 8 hok (by simp [zeroPolicy]) rfl (by decide) (by omega) (by decide)).1⟩

/-- C10 — amended.  The merge combines a pair only when the larger
entry is normal (an entry equal to `0.0` is neither merged away nor set
to `-∞`: every non-normal entry survives a completed merge unchanged),
and asserts the smaller entry is then also normal.  Consequently
`forward` panics whenever a pair of the first processed transform,
FlipLR, has a normal entry at the larger index but a non-normal (zero
or subnormal) entry at the smaller index; for pairs of later
transforms an earlier pass can merge the larger entry away and avert
the panic (see the counterexample). -/
theorem merge_assert_amended :
    (∀ (board : Board) (p p' : List GFloat) (k : Nat),
      mergeSymmetries board p = .ok p' →
      (p.getD k .negInf).isNormal = false →
      p'.getD k .negInf = p.getD k .negInf) ∧
    (∀ (board : Board) (p : List GFloat) (i : Nat),
      board.isSymmetric .flipLR = true →
      i < 361 → Transform.flipLR.apply i ≠ i →
      (p.getD (max i (Transform.flipLR.apply i)) .negInf).isNormal = true →
      (p.getD (min i (Transform.flipLR.apply i)) .negInf).isNormal = false →
      mergeSymmetries board p = .error .assertFailed) := by
  constructor
  · intro board p p' k h hk
    exact mergeFold_abs board SYMM.tail p p' h k hk
  · intro board p i hsym hi hne hM hm
    show mergeFold board
      [.flipLR, .flipUD, .transpose, .transposeAnti, .rot90, .rot180, .rot270]
      p = .error .assertFailed
    rw [mergeFold]
    have hpass : mergePass board .flipLR p = .error .assertFailed := by
      rw [mergePass, if_pos hsym]
      refine mergePassAux_panic .flipLR
        (fun a ha => flipLR_involutive a ha)
        (fun a ha => apply_lt _ a ha)
        361 0 (List.replicate 368 false) p i rfl hi hne (Nat.zero_le _) ?_ hM hm
      have hlt : min i (Transform.flipLR.apply i) < 368 := by
        have := Nat.min_le_left i (Transform.flipLR.apply i)
        omega
      rw [List.getD, List.get?_eq_getElem?, List.getElem?_replicate, if_pos hlt]
      rfl
    rw [hpass]

/-- Witness for the amended C10: on the FlipLR-symmetric board, a
policy with the normal value 1 at index 10 and `0.0` at its partner 8
makes the merge panic. -/
theorem merge_assert_amended_witness :
    lrBoard.isSymmetric .flipLR = true ∧
    (c10wPolicy.getD (max 8 (Transform.flipLR.apply 8)) .negInf).isNormal = true ∧
    (c10wPolicy.getD (min 8 (Transform.flipLR.apply 8)) .negInf).isNormal = false ∧
    mergeSymmetries lrBoard c10wPolicy = .error .assertFailed :=
  ⟨rfl, by decide, by decide,
    merge_assert_amended.2 lrBoard c10wPolicy 8 rfl (by omega) (by decide)
      (by decide) (by decide)⟩

/-- A merge pass in which no loop index sees a normal source entry
changes nothing. -/
theorem mergePassAux_noSrc (t : Transform) :
    ∀ (fuel i : Nat) (visited : List Bool) (p : List GFloat),
      i + fuel ≤ 361 →
      (∀ k, i ≤ k → k < 361 →
        (p.getD (max k (t.apply k)) .negInf).isNormal = false) →
      mergePassAux t fuel i visited p = .ok p := by
  intro fuel
  induction fuel with
  | zero => intro i visited p _ _; rfl
  | succ n ih =>
      intro i visited p hif hns
      rw [mergePassAux_succ]
      by_cases hc : i ≠ t.apply i ∧ visited.getD i true = false
      · rw [mergeStep_nosrc t i visited p hc (hns i (le_refl i) (by omega))]
        exact ih (i + 1) _ p (by omega) (fun k hk hk2 => hns k (by omega) hk2)
      · rw [mergeStep_skip t i visited p hc]
        exact ih (i + 1) _ p (by omega) (fun k hk hk2 => hns k (by omega) hk2)

/-- A merge pass in which exactly one pair `(a, t a)` (with `a` the
smaller index) carries normal entries merges that pair — adding the
larger entry into the smaller and writing `-∞` over the larger — and
nothing else. -/
theorem mergePassAux_singlePair (t : Transform)
    (hinv : ∀ a, a < 361 → t.apply (t.apply a) = a) :
    ∀ (fuel i : Nat) (visited : List Bool) (p : List GFloat) (a : Nat),
      i + fuel = 361 → a < 361 → a < t.apply a → i ≤ a →
      visited.getD a true = false →
      (p.getD a .negInf).isNormal = true →
      (p.getD (t.apply a) .negInf).isNormal = true →
      (∀ k, k < 361 → k ≠ a → k ≠ t.apply a →
        (p.getD (max k (t.apply k)) .negInf).isNormal = false) →
      mergePassAux t fuel i visited p =
        .ok ((p.set a ((p.getD a .negInf).add (p.getD (t.apply a) .negInf))).set
          (t.apply a) .negInf) := by
  intro fuel
  induction fuel with
  | zero =>
      intro i visited p a hif ha hlt him _ _ _ _
      omega
  | succ n ih =>
      intro i visited p a hif ha hlt him hvis hNa hNb hOther
      rw [mergePassAux_succ]
      by_cases hia : i = a
      · subst hia
        have hc : i ≠ t.apply i ∧ visited.getD i true = false := ⟨by omega, hvis⟩
        have hmx : max i (t.apply i) = t.apply i := Nat.max_eq_right (le_of_lt hlt)
        have hmn : min i (t.apply i) = i := Nat.min_eq_left (le_of_lt hlt)
        rw [mergeStep_merge t i visited p hc (by rw [hmx]; exact hNb)
          (by rw [hmn]; exact hNa)]
        set P1 := (p.set (min i (t.apply i))
            ((p.getD (min i (t.apply i)) .negInf).add
              (p.getD (max i (t.apply i)) .negInf))).set (max i (t.apply i))
            .negInf with hP1
        have hP1e : P1 = (p.set i ((p.getD i .negInf).add
            (p.getD (t.apply i) .negInf))).set (t.apply i) .negInf := by
          rw [hP1, hmx, hmn]
        rw [hP1e]
        refine mergePassAux_noSrc t n (i + 1) _ _ (by omega) ?_
        intro k hk hk361
        have hka : k ≠ i := by omega
        by_cases hkb : k = t.apply i
        · have hmx2 : max k (t.apply k) = k := by
            have : t.apply k = i := by rw [hkb, hinv i (by omega)]
            rw [this]
            omega
          rw [hmx2, hkb,
            getD_set_self _ _ _ (by simpa using lt_length_of_isNormal hNb)]
          rfl
        · have hsrcne : max k (t.apply k) ≠ i ∧ max k (t.apply k) ≠ t.apply i := by
            constructor
            · intro he
              have : k = i ∨ t.apply k = i := by omega
              rcases this with h1 | h1
              · exact hka h1
              · have : t.apply (t.apply k) = t.apply i := by rw [h1]
                rw [hinv k hk361] at this
                exact hkb this
            · intro he
              have : k = t.apply i ∨ t.apply k = t.apply i := by omega
              rcases this with h1 | h1
              · exact hkb h1
              · have : t.apply (t.apply k) = t.apply (t.apply i) := by rw [h1]
                rw [hinv k hk361, hinv i (by omega)] at this
                exact hka this
          rw [getD_set_ne _ _ _ (fun he => hsrcne.2 he.symm),
            getD_set_ne _ _ _ (fun he => hsrcne.1 he.symm)]
          exact hOther k hk361 hka hkb
      · have hilt : i < a := by omega
        have hi361 : i < 361 := by omega
        have hine : i ≠ a := by omega
        have hineb : i ≠ t.apply a := by
          intro he
          have : t.apply i = t.apply (t.apply a) → t.apply i = a := by
            rw [hinv a ha]
            exact id
          omega
        have hnsi : (p.getD (max i (t.apply i)) .negInf).isNormal = false :=
          hOther i hi361 hine hineb
        have htia : t.apply i ≠ a := by
          intro he
          have h1 : t.apply (t.apply i) = t.apply a := by rw [he]
          rw [hinv i hi361] at h1
          omega
        by_cases hc : i ≠ t.apply i ∧ visited.getD i true = false
        · rw [mergeStep_nosrc t i visited p hc hnsi]
          refine ih (i + 1) _ p a (by omega) ha hlt (by omega) ?_ hNa hNb hOther
          rw [getD_set_ne _ _ _ (fun he => htia he),
            getD_set_ne _ _ _ (fun he => hine he)]
          exact hvis
        · rw [mergeStep_skip t i visited p hc]
          exact ih (i + 1) _ p a (by omega) ha hlt (by omega) hvis hNa hNb hOther

theorem flipUD_involutive (a : Nat) (ha : a < 361) :
    Transform.flipUD.apply (Transform.flipUD.apply a) = a := by
  have hx : a % 19 ≤ 18 := by omega
  have hy : a / 19 ≤ 18 := by omega
  simp only [Transform.apply, coordX, coordY]
  omega

/-- The FlipLR pass of the C10 counterexample merges 352 into 350. -/
theorem c10_mergePass_flipLR : mergePass crossBoard .flipLR c10Policy = .ok c10P1 := by
  rw [mergePass, if_pos (by decide)]
  rw [mergePassAux_singlePair .flipLR flipLR_involutive 361 0
    (List.replicate 368 false) c10Policy 350 rfl (by decide) (by decide)
    (by omega) (by decide) (by decide) (by decide) (by decide)]
  congr 1

/-- The FlipUD pass of the C10 counterexample finds no normal source
left (352 was already merged away) and is a no-op. -/
theorem c10_mergePass_flipUD : mergePass crossBoard .flipUD c10P1 = .ok c10P2 := by
  rw [mergePass, if_pos (by decide)]
  rw [mergePassAux_singlePair .flipUD flipUD_involutive 361 0
    (List.replicate 368 false) c10P1 8 rfl (by decide) (by decide)
    (by omega) (by decide) (by decide) (by decide) (by decide)]
  congr 1

/-- The Rot180 pass of the C10 counterexample is a no-op. -/
theorem c10_mergePass_rot180 : mergePass crossBoard .rot180 c10P2 = .ok c10P2 := by
  rw [mergePass, if_pos (by decide)]
  exact mergePassAux_noSrc .rot180 361 0 _ c10P2 (by omega) (by decide)

/-- Every invalid point of the cross board already holds `-∞` in the
C10 counterexample policy. -/
theorem c10_mask_invalid : ∀ n, n < 361 →
    crossBoard.isValid .black (coordX n) (coordY n) = false →
    c10Policy.getD n .negInf = .negInf := by decide

/-- Masking leaves the C10 counterexample policy unchanged. -/
theorem c10_mask : maskIllegal crossBoard .black c10Policy = c10Policy := by
  apply List.ext_getElem (maskIllegal_length crossBoard .black c10Policy)
  intro n h1 h2
  have h3 : (maskIllegal crossBoard .black c10Policy).getD n .negInf =
      c10Policy.getD n .negInf := by
    by_cases hn : n < 361
    · rw [maskIllegal, maskAux_getD_in crossBoard .black 361 0 c10Policy n
        (by omega) (by omega) h2]
      by_cases hv : crossBoard.isValid .black (coordX n) (coordY n) = true
      · rw [if_pos hv]
      · rw [if_neg hv]
        rw [c10_mask_invalid n hn (by simpa using hv)]
    · exact maskAux_getD_out crossBoard .black 361 0 c10Policy n (by omega)
  simpa [List.getD, List.get?_eq_getElem?, List.getElem?_eq_getElem, h1, h2]
    using h3

/-- One resolved pass peels off the head transform of the merge fold. -/
theorem mergeFold_cons_ok (board : Board) (t : Transform) (ts : List Transform)
    (policy policy' : List GFloat) (h : mergePass board t policy = .ok policy') :
    mergeFold board (t :: ts) policy = mergeFold board ts policy' := by
  rw [mergeFold, h]

/-- The full seven-pass merge of the C10 counterexample returns
normally. -/
theorem c10_merge : mergeSymmetries crossBoard c10Policy = .ok c10P2 := by
  have hskT : mergePass crossBoard .transpose c10P2 = .ok c10P2 := by
    rw [mergePass]
    rfl
  have hskTA : mergePass crossBoard .transposeAnti c10P2 = .ok c10P2 := by
    rw [mergePass]
    rfl
  have hskR90 : mergePass crossBoard .rot90 c10P2 = .ok c10P2 := by
    rw [mergePass]
    rfl
  have hskR270 : mergePass crossBoard .rot270 c10P2 = .ok c10P2 := by
    rw [mergePass]
    rfl
  show mergeFold crossBoard
    [.flipLR, .flipUD, .transpose, .transposeAnti, .rot90, .rot180, .rot270]
    c10Policy = .ok c10P2
  rw [mergeFold_cons_ok crossBoard .flipLR _ c10Policy c10P1 c10_mergePass_flipLR,
    mergeFold_cons_ok crossBoard .flipUD _ c10P1 c10P2 c10_mergePass_flipUD,
    mergeFold_cons_ok crossBoard .transpose _ c10P2 c10P2 hskT,
    mergeFold_cons_ok crossBoard .transposeAnti _ c10P2 c10P2 hskTA,
    mergeFold_cons_ok crossBoard .rot90 _ c10P2 c10P2 hskR90,
    mergeFold_cons_ok crossBoard .rot180 _ c10P2 c10P2 c10_mergePass_rot180,
    mergeFold_cons_ok crossBoard .rot270 _ c10P2 c10P2 hskR270]
  rfl

/-- C10 — counterexample to the claim as stated.  The board legal only
at the four points `(8,0)`, `(10,0)`, `(8,18)`, `(10,18)` is invariant
under FlipUD, which maps index 10 onto index 352; the merge input (the
masked policy, which masking leaves unchanged here) has the normal
value 1 at the larger index 352 and `0.0` at the smaller index 10 —
the exact premise of the claim — and yet the merge and the whole
forward pass complete without panic: the earlier FlipLR pass had
already merged 352 away into 350, so the FlipUD pass skips the pair. -/
theorem merge_assert_cex :
    crossBoard.isSymmetric .flipUD = true ∧
    Transform.flipUD.apply 10 = 352 ∧
    maskIllegal crossBoard .black c10Policy = c10Policy ∧
    (c10Policy.getD 352 .negInf).isNormal = true ∧
    c10Policy.getD 10 .negInf = .sub 0 ∧
    exceptIsOk (mergeSymmetries crossBoard c10Policy) = true ∧
    exceptIsOk (forwardPolicy crossBoard .black c10Policy) = true := by
  refine ⟨by decide, by decide, c10_mask, by decide, by decide, ?_, ?_⟩
  · rw [c10_merge]
    rfl
  · rw [forwardPolicy, c10_mask, c10_merge]
    rfl

/-! ## Claim C4: a board whose only legal move is the pass -/

theorem getD_replicate_append_lt (x : GFloat) (k : Nat) (hk : k < 361) :
    (List.replicate 361 GFloat.negInf ++ [x]).getD k .negInf = .negInf := by
  rw [List.getD, List.get?_eq_getElem?,
    List.getElem?_append_left (by simp [List.length_replicate]; omega),
    List.getElem?_replicate, if_pos hk]
  rfl

theorem getD_replicate_append_last (x : GFloat) :
    (List.replicate 361 GFloat.negInf ++ [x]).getD 361 .negInf = x := by
  rw [List.getD, List.get?_eq_getElem?,
    List.getElem?_append_right (by simp [List.length_replicate])]
  simp

theorem normalSum_cons_negInf (l : List GFloat) :
    normalSum (.negInf :: l) = normalSum l := by
  rw [normalSum, normalSum, List.filter_cons_of_neg (by simp [GFloat.isNormal])]

theorem normalSum_replicate_append (n : Nat) (l : List GFloat) :
    normalSum (List.replicate n .negInf ++ l) = normalSum l := by
  induction n with
  | zero => rfl
  | succ m ih => rw [List.replicate_succ, List.cons_append, normalSum_cons_negInf, ih]

theorem normalSum_single_norm (q : ℚ) :
    normalSum (List.replicate 361 GFloat.negInf ++ [.norm q]) = q := by
  rw [normalSum_replicate_append, normalSum,
    List.filter_cons_of_pos (by rfl), List.filter_nil]
  show q + 0 = q
  ring

/-- The masked policy of a board with no legal board move, whose pass
entry is `x`: `-∞` below the pass index, `x` at it. -/
theorem maskIllegal_noLegal (board : Board) (c : Color) (p : List GFloat)
    (x : GFloat)
    (hleg : ∀ i, i < 361 → board.isValid c (coordX i) (coordY i) = false)
    (hlen : p.length = 362)
    (hpass : p.getD 361 .negInf = x) :
    maskIllegal board c p = List.replicate 361 .negInf ++ [x] := by
  apply List.ext_getElem
    (by rw [maskIllegal_length, hlen]; simp)
  intro n h1 h2
  have hn362 : n < 362 := by
    rw [maskIllegal_length, hlen] at h1
    exact h1
  have h3 : (maskIllegal board c p).getD n .negInf =
      (List.replicate 361 GFloat.negInf ++ [x]).getD n .negInf := by
    by_cases hn : n < 361
    · rw [maskIllegal, maskAux_getD_in board c 361 0 p n (by omega) (by omega)
        (by omega), getD_replicate_append_lt x n hn]
      rw [if_neg (by rw [hleg n hn]; simp)]
    · have hn' : n = 361 := by omega
      rw [hn', maskIllegal, maskAux_getD_out board c 361 0 p 361 (by omega), hpass,
        getD_replicate_append_last]
  have h4 := h3
  rw [List.getD, List.getD, List.get?_eq_getElem?, List.get?_eq_getElem?,
    List.getElem?_eq_getElem h1, List.getElem?_eq_getElem h2] at h4
  simpa only [Option.getD_some] using h4

/-- C4 — amended.  On a board whose only legal move is the pass, and
when the evaluator's pass entry is a normal value `q` above the `1e-4`
renormalization floor, the augmented forward pass returns all mass on
the pass index: entry `1` at index 361 and `-∞` everywhere else. -/
theorem forward_pass_only_amended (board : Board) (c : Color)
    (p : List GFloat) (q : ℚ)
    (hleg : ∀ i, i < 361 → board.isValid c (coordX i) (coordY i) = false)
    (hlen : p.length = 362)
    (hpass : p.getD 361 .negInf = .norm q)
    (hq : 1 / 10000 < q) :
    forwardPolicy board c p = .ok (List.replicate 361 .negInf ++ [.norm 1]) := by
  have hml := maskIllegal_noLegal board c p (.norm q) hleg hlen hpass
  have hmerge : mergeSymmetries board (List.replicate 361 .negInf ++ [.norm q]) =
      .ok (List.replicate 361 .negInf ++ [.norm q]) := by
    refine mergeFold_noop board SYMM.tail _ ?_
    intro k hk
    rw [getD_replicate_append_lt _ k hk]
    rfl
  have hq0 : q ≠ 0 := by
    have : (0 : ℚ) < q := lt_trans (by norm_num) hq
    exact ne_of_gt this
  have hren : renormalize (List.replicate 361 GFloat.negInf ++ [.norm q]) =
      List.replicate 361 GFloat.negInf ++ [.norm 1] := by
    rw [renormalize]
    simp only [normalSum_single_norm]
    rw [if_pos hq, List.map_append, List.map_replicate]
    show List.replicate 361 (GFloat.scale q⁻¹ .negInf) ++
      [GFloat.scale q⁻¹ (.norm q)] = _
    simp only [GFloat.scale]
    rw [mul_inv_cancel₀ hq0]
  rw [forwardPolicy, hml, hmerge, Except.map, hren]

/-- Witness for the amended C4 at a concrete input: the all-invalid
board and an evaluator policy whose pass entry is the normal value 1. -/
theorem forward_pass_only_amended_witness :
    (∀ i, i < 361 → fullBoard.isValid .black (coordX i) (coordY i) = false) ∧
    (List.replicate 361 (GFloat.sub 0) ++ [GFloat.norm 1]).getD 361 .negInf
      = .norm 1 ∧
    forwardPolicy fullBoard .black
        (List.replicate 361 (GFloat.sub 0) ++ [GFloat.norm 1]) =
      .ok (List.replicate 361 .negInf ++ [.norm 1]) := by
  refine ⟨fun i _ => rfl, by decide, ?_⟩
  exact forward_pass_only_amended fullBoard .black _ 1 (fun i _ => rfl)
    (by simp) (by decide) (by norm_num)

/-- C4 — counterexample to the claim as stated.  On a board whose only
legal move is the pass, an evaluator policy that is `0.0` everywhere
(in particular at the pass index) leaves no normal mass: the
renormalization is skipped and the returned policy has the non-normal
entry `0.0` at the pass index instead of 1. -/
theorem forward_pass_only_cex :
    (∀ i, i < 361 → fullBoard.isValid .black (coordX i) (coordY i) = false) ∧
    forwardPolicy fullBoard .black zeroPolicy =
      .ok (List.replicate 361 .negInf ++ [.sub 0]) ∧
    (List.replicate 361 GFloat.negInf ++ [GFloat.sub 0]).getD 361 .negInf
      ≠ .norm 1 := by
  have hml := maskIllegal_noLegal fullBoard .black zeroPolicy (.sub 0)
    (fun i _ => rfl) (by simp [zeroPolicy]) (by decide)
  have hmerge : mergeSymmetries fullBoard (List.replicate 361 .negInf ++ [.sub 0]) =
      .ok (List.replicate 361 .negInf ++ [.sub 0]) := by
    refine mergeFold_noop fullBoard SYMM.tail _ ?_
    intro k hk
    rw [getD_replicate_append_lt _ k hk]
    rfl
  have hren : renormalize (List.replicate 361 GFloat.negInf ++ [.sub 0]) =
      List.replicate 361 GFloat.negInf ++ [.sub 0] := by
    refine renormalize_nonNormal _ ?_
    intro x hx
    rcases List.mem_append.mp hx with hx | hx
    · rw [List.eq_of_mem_replicate hx]
      rfl
    · rw [List.mem_singleton.mp hx]
      rfl
  refine ⟨fun i _ => rfl, ?_, ?_⟩
  · rw [forwardPolicy, hml, hmerge, Except.map, hren]
  · rw [getD_replicate_append_last]
    decide

/-! ## Claim C8: the configuration guard of `predict` -/

/-- C8: `predict` checks `iteration_limit % batch_size == 0` and
`thread_count % batch_size == 0` first; when either fails it halts with
a failed assertion (a panic, not a recoverable error) having performed
no effect — no root evaluation, no thread spawn, no batch
evaluation. -/
theorem predict_guard (cfg : MctsConfig)
    (h : ¬(cfg.iterationLimit % cfg.batchSize = 0 ∧
      cfg.threadCount % cfg.batchSize = 0)) :
    predictEvents cfg = ([], some Panic.assertFailed) := by
  rw [predictEvents]
  by_cases h1 : cfg.iterationLimit % cfg.batchSize = 0
  · rw [if_neg (fun hc => hc h1), if_pos (fun h2 => h ⟨h1, h2⟩)]
  · rw [if_pos h1]

/-- Witness for C8: `iteration_limit = 9`, `batch_size = 2` violates
the divisibility constraint and `predict` panics without any effect. -/
theorem predict_guard_witness :
    ¬((9 : Nat) % 2 = 0 ∧ (2 : Nat) % 2 = 0) ∧
    predictEvents ⟨9, 2, 2⟩ = ([], some Panic.assertFailed) :=
  ⟨by decide, predict_guard ⟨9, 2, 2⟩ (by decide)⟩

/-! ## Claims C6 and C7: the self-play driver -/

/-- C6: at any ply, when the value returned by the search is below the
resignation threshold `-0.9`, the driver finalizes the record at once
as a resignation in favor of the opponent of the current player, with
margin the negated value, applying no move to the board; in particular
a search that always reports a value `≤ -0.95` resigns on the first
ply. -/
theorem selfplay_resign {β : Type} (ops : BoardOps β) :
    (∀ (predictFn : β → Color → Prediction) (fuel : Nat) (board : β)
      (current : Color) (passCount : Nat) (sgf : List SgfEntry),
      (predictFn board current).value < -(9 / 10) →
      selfPlayLoop ops predictFn (fuel + 1) board current passCount sgf =
        .resign (sgf ++ [.resignEntry current]) board current.opposite
          (-(predictFn board current).value)) ∧
    (∀ (predictFn : β → Color → Prediction) (b0 : β),
      (∀ b c, (predictFn b c).value ≤ -(19 / 20)) →
      selfPlay ops predictFn b0 =
        .resign [.resignEntry .black] b0 .white (-(predictFn b0 .black).value)) := by
  have hstep : ∀ (predictFn : β → Color → Prediction) (fuel : Nat) (board : β)
      (current : Color) (passCount : Nat) (sgf : List SgfEntry),
      (predictFn board current).value < -(9 / 10) →
      selfPlayLoop ops predictFn (fuel + 1) board current passCount sgf =
        .resign (sgf ++ [.resignEntry current]) board current.opposite
          (-(predictFn board current).value) := by
    intro predictFn fuel board current passCount sgf h
    rw [selfPlayLoop, selfPlayStep]
    simp only [if_pos h]
  refine ⟨hstep, ?_⟩
  intro predictFn b0 h
  have h1 : (predictFn b0 .black).value < -(9 / 10) :=
    lt_of_le_of_lt (h b0 .black) (by norm_num)
  rw [selfPlay]
  rw [show (722 : Nat) = 721 + 1 from rfl, hstep predictFn 721 b0 .black 0 [] h1]
  rfl

/-- Witness for C6: a scripted search that always reports value
`-0.95` makes the driver resign on the first ply with White the winner
and margin `0.95`, the board untouched. -/
theorem selfplay_resign_witness :
    (∀ (b : Nat) (c : Color),
      ((fun (_ : Nat) (_ : Color) => Prediction.mk (-(19 / 20)) 0 0 []) b c).value
        ≤ -(19 / 20)) ∧
    selfPlay (⟨fun b _ _ _ => b + 1⟩ : BoardOps Nat)
        (fun _ _ => Prediction.mk (-(19 / 20)) 0 0 []) 0 =
      .resign [.resignEntry .black] 0 .white (19 / 20) := by
  refine ⟨fun b c => le_refl _, ?_⟩
  rw [(selfplay_resign (⟨fun b _ _ _ => b + 1⟩ : BoardOps Nat)).2
    (fun _ _ => Prediction.mk (-(19 / 20)) 0 0 []) 0 (fun b c => le_refl _)]
  norm_num

/-- C7: a chosen pass increments the consecutive-pass counter and
applies no move; the game ends with an `Ended` result at a ply exactly
when that pass makes the counter reach two; a non-pass move resets the
counter to zero and applies the move to the board.  Consequently a
search that always selects the pass move (with a value above the
resignation threshold) ends the game after exactly two plies with the
board unchanged. -/
theorem selfplay_pass {β : Type} (ops : BoardOps β) :
    (∀ (predictFn : β → Color → Prediction) (fuel : Nat) (board : β)
      (current : Color) (passCount : Nat) (sgf : List SgfEntry),
      ¬((predictFn board current).value < -(9 / 10)) →
      (predictFn board current).index = 361 →
      passCount + 1 < 2 →
      selfPlayLoop ops predictFn (fuel + 1) board current passCount sgf =
        selfPlayLoop ops predictFn fuel board current.opposite (passCount + 1)
          (sgf ++ [.passEntry current (predictFn board current).policy])) ∧
    (∀ (predictFn : β → Color → Prediction) (fuel : Nat) (board : β)
      (current : Color) (passCount : Nat) (sgf : List SgfEntry),
      ¬((predictFn board current).value < -(9 / 10)) →
      (predictFn board current).index = 361 →
      2 ≤ passCount + 1 →
      selfPlayLoop ops predictFn (fuel + 1) board current passCount sgf =
        .ended (sgf ++ [.passEntry current (predictFn board current).policy])
          board) ∧
    (∀ (predictFn : β → Color → Prediction) (fuel : Nat) (board : β)
      (current : Color) (passCount : Nat) (sgf : List SgfEntry),
      ¬((predictFn board current).value < -(9 / 10)) →
      (predictFn board current).index ≠ 361 →
      selfPlayLoop ops predictFn (fuel + 1) board current passCount sgf =
        selfPlayLoop ops predictFn fuel
          (ops.place board current (coordX (predictFn board current).index)
            (coordY (predictFn board current).index))
          current.opposite 0
          (sgf ++ [.moveEntry current (coordX (predictFn board current).index)
            (coordY (predictFn board current).index)
            (predictFn board current).policy
            (if (predictFn board current).priorIndex = 361 then (19, 19)
              else (coordX (predictFn board current).priorIndex,
                coordY (predictFn board current).priorIndex)).1
            (if (predictFn board current).priorIndex = 361 then (19, 19)
              else (coordX (predictFn board current).priorIndex,
                coordY (predictFn board current).priorIndex)).2])) ∧
    (∀ (predictFn : β → Color → Prediction) (b0 : β),
      (∀ b c, (predictFn b c).index = 361) →
      (∀ b c, ¬((predictFn b c).value < -(9 / 10))) →
      selfPlay ops predictFn b0 =
        .ended [.passEntry .black (predictFn b0 .black).policy,
          .passEntry .white (predictFn b0 .white).policy] b0) := by
  have hpassc : ∀ (predictFn : β → Color → Prediction) (fuel : Nat) (board : β)
      (current : Color) (passCount : Nat) (sgf : List SgfEntry),
      ¬((predictFn board current).value < -(9 / 10)) →
      (predictFn board current).index = 361 →
      passCount + 1 < 2 →
      selfPlayLoop ops predictFn (fuel + 1) board current passCount sgf =
        selfPlayLoop ops predictFn fuel board current.opposite (passCount + 1)
          (sgf ++ [.passEntry current (predictFn board current).policy]) := by
    intro predictFn fuel board current passCount sgf hv hi hp
    rw [selfPlayLoop, selfPlayStep]
    rw [if_neg hv, if_pos hi, if_neg (show ¬(2 ≤ passCount + 1) from by omega)]
  have hpasse : ∀ (predictFn : β → Color → Prediction) (fuel : Nat) (board : β)
      (current : Color) (passCount : Nat) (sgf : List SgfEntry),
      ¬((predictFn board current).value < -(9 / 10)) →
      (predictFn board current).index = 361 →
      2 ≤ passCount + 1 →
      selfPlayLoop ops predictFn (fuel + 1) board current passCount sgf =
        .ended (sgf ++ [.passEntry current (predictFn board current).policy])
          board := by
    intro predictFn fuel board current passCount sgf hv hi hp
    rw [selfPlayLoop, selfPlayStep]
    rw [if_neg hv, if_pos hi, if_pos hp]
  refine ⟨hpassc, hpasse, ?_, ?_⟩
  · intro predictFn fuel board current passCount sgf hv hi
    rw [selfPlayLoop, selfPlayStep]
    rw [if_neg hv, if_neg hi]
  · intro predictFn b0 hidx hval
    rw [selfPlay, show (722 : Nat) = 721 + 1 from rfl,
      hpassc predictFn 721 b0 .black 0 [] (hval b0 .black) (hidx b0 .black)
        (by omega)]
    exact hpasse predictFn 720 b0 .white 1
      [SgfEntry.passEntry .black (predictFn b0 .black).policy]
      (hval b0 .white) (hidx b0 .white) (by omega)

/-- Witness for C7: a scripted search that always passes with value 0
ends the game after exactly two pass plies, the board unchanged. -/
theorem selfplay_pass_witness :
    (∀ (b : Nat) (c : Color),
      ((fun (_ : Nat) (_ : Color) => Prediction.mk 0 361 0 []) b c).index = 361) ∧
    selfPlay (⟨fun b _ _ _ => b + 1⟩ : BoardOps Nat)
        (fun _ _ => Prediction.mk 0 361 0 []) 5 =
      .ended [.passEntry .black [], .passEntry .white []] 5 := by
  refine ⟨fun b c => rfl, ?_⟩
  exact (selfplay_pass (⟨fun b _ _ _ => b + 1⟩ : BoardOps Nat)).2.2.2
    (fun _ _ => Prediction.mk 0 361 0 []) 5 (fun b c => rfl)
    (fun b c => by norm_num)

/-! ## Claim C9: the RingHistory circular buffer -/

/-- `push` then iterate: the pushed value first, then all but the last
of the previous iteration. -/
theorem circularBuf_push_items (b : CircularBuf) (hp : b.position < 6)
    (hl : b.buf.length = 6) (v : Nat) :
    (b.push v).items = v :: b.items.take 5 := by
  obtain ⟨p, buf⟩ := b
  simp only at hp hl
  have hs : ∀ k : Nat, k < 6 → (buf.set k v)[k]?.getD 0 = v := by
    intro k hk
    rw [List.getElem?_set_eq_of_lt v (by omega)]
    rfl
  interval_cases p <;>
    simp [CircularBuf.push, CircularBuf.items, CircularBuf.iter, iterItems,
      CircularIterator.next, nModSix, pModSix, getD_set_ne buf v 0, hs]

theorem circularBuf_pushAll_inv (vs : List Nat) :
    ∀ b : CircularBuf, b.position < 6 → b.buf.length = 6 →
      (b.pushAll vs).position < 6 ∧ (b.pushAll vs).buf.length = 6 := by
  induction vs with
  | nil => intro b hp hl; exact ⟨hp, hl⟩
  | cons v vs ih =>
      intro b hp hl
      refine ih (b.push v) ?_ (by simp [CircularBuf.push, hl])
      have : ∀ p, p < 6 → nModSix.getD p 0 < 6 := by decide
      exact this b.position hp

theorem circularBuf_pushAll_append (b : CircularBuf) (vs : List Nat) (v : Nat) :
    b.pushAll (vs ++ [v]) = (b.pushAll vs).push v := by
  rw [CircularBuf.pushAll, CircularBuf.pushAll, List.foldl_append]
  rfl

/-- C9: after pushing any sequence of values into a fresh RingHistory,
iterating yields exactly six items: the `min n 6` most recent values in
reverse push order, padded with the sentinel value 361 when fewer than
six values were ever pushed; and iteration is restartable — the
iterator is created afresh from the unchanged buffer, so repeated
iterations yield identical sequences. -/
theorem ring_history (vs : List Nat) :
    (CircularBuf.new.pushAll vs).items =
      vs.reverse.take 6 ++ List.replicate (6 - min vs.length 6) 361 ∧
    (CircularBuf.new.pushAll vs).items.length = 6 ∧
    iterItems 7 (CircularBuf.new.pushAll vs).iter =
      iterItems 7 (CircularBuf.new.pushAll vs).iter := by
  have hmain : (CircularBuf.new.pushAll vs).items =
      vs.reverse.take 6 ++ List.replicate (6 - min vs.length 6) 361 := by
    induction vs using List.reverseRecOn with
    | nil => decide
    | append_singleton vs v ih =>
        have hinv := circularBuf_pushAll_inv vs CircularBuf.new (by decide)
          (by decide)
        rw [circularBuf_pushAll_append, circularBuf_push_items _ hinv.1 hinv.2,
          ih]
        rw [List.reverse_append, List.reverse_singleton, List.singleton_append,
          List.take_succ_cons]
        rw [List.take_append_eq_append_take, List.take_take, List.take_replicate]
        have e2 : (vs.reverse.take 6).length = min 6 vs.length := by
          simp [List.length_take]
        rw [show min 5 6 = 5 from rfl, e2]
        have e3 : min (5 - min 6 vs.length) (6 - min vs.length 6) =
            6 - min (vs ++ [v]).length 6 := by
          simp only [List.length_append, List.length_singleton]
          omega
        rw [e3, List.cons_append]
  refine ⟨hmain, ?_, rfl⟩
  rw [hmain]
  simp [List.length_append, List.length_take, List.length_replicate]
  omega

/-! ## Claim C1: the batch dispatcher loop -/

theorem dispatcherRun_succ {φ π : Type} (eval : List φ → List ℚ × List π)
    (batchSize n : Nat) (pending : List (φ × Nat)) :
    dispatcherRun eval batchSize (n + 1) pending =
      if batchSize ≤ pending.length then
        match dispatcherRun eval batchSize n (pending.drop batchSize) with
        | some (batches, replies') =>
            some ((pending.take batchSize).map Prod.fst :: batches,
              (List.zipWith (fun (req : φ × Nat) (r : ℚ × π) => (req.2, r.1, r.2))
                (pending.take batchSize)
                ((eval ((pending.take batchSize).map Prod.fst)).1.zip
                  (eval ((pending.take batchSize).map Prod.fst)).2)) ++ replies')
        | none => none
      else none := rfl

theorem expectedBatches_succ {φ : Type} (batchSize n : Nat)
    (pending : List (φ × Nat)) :
    expectedBatches batchSize (n + 1) pending =
      (pending.take batchSize).map Prod.fst ::
        expectedBatches batchSize n (pending.drop batchSize) := by
  rw [expectedBatches, expectedBatches, List.range_succ_eq_map, List.map_cons,
    List.map_map]
  congr 1
  · simp
  · refine List.map_congr_left ?_
    intro k _
    have he : (pending.drop batchSize).drop (k * batchSize) =
        pending.drop (Nat.succ k * batchSize) := by
      rw [List.drop_drop]
      congr 1
      rw [Nat.succ_mul]
      omega
    simp only [Function.comp_apply, he]

theorem expectedReplies_succ {φ π : Type} (eval : List φ → List ℚ × List π)
    (batchSize n : Nat) (pending : List (φ × Nat)) :
    expectedReplies eval batchSize (n + 1) pending =
      (List.zipWith (fun (req : φ × Nat) (r : ℚ × π) => (req.2, r.1, r.2))
        (pending.take batchSize)
        ((eval ((pending.take batchSize).map Prod.fst)).1.zip
          (eval ((pending.take batchSize).map Prod.fst)).2)) ++
        expectedReplies eval batchSize n (pending.drop batchSize) := by
  rw [expectedReplies, expectedReplies, List.range_succ_eq_map, List.map_cons,
    List.map_map, List.flatten_cons]
  congr 2
  · simp
  · refine List.map_congr_left ?_
    intro k _
    have he : (pending.drop batchSize).drop (k * batchSize) =
        pending.drop (Nat.succ k * batchSize) := by
      rw [List.drop_drop]
      congr 1
      rw [Nat.succ_mul]
      omega
    simp only [Function.comp_apply, he]

/-- C1: with the full complement of `n * batch_size` pending requests
available, the dispatcher loop runs exactly `n` iterations (one
evaluator call per iteration, `n` in total), each iteration collecting
exactly the next `batch_size` requests in arrival order, and replies to
the `i`-th requester of each batch with exactly the `i`-th value and
`i`-th policy of the evaluator's output for that batch.  Instantiated
at `n = iteration_limit / batch_size` this is the dispatcher of
`predict`. -/
theorem dispatcher_batches_replies {φ π : Type}
    (eval : List φ → List ℚ × List π) :
    ∀ (n batchSize : Nat) (pending : List (φ × Nat)),
      n * batchSize ≤ pending.length →
      dispatcherRun eval batchSize n pending =
        some (expectedBatches batchSize n pending,
          expectedReplies eval batchSize n pending) ∧
      (expectedBatches batchSize n pending).length = n := by
  intro n
  induction n with
  | zero =>
      intro batchSize pending _
      exact ⟨rfl, rfl⟩
  | succ m ih =>
      intro batchSize pending hlen
      rw [Nat.succ_mul] at hlen
      have hbs : batchSize ≤ pending.length := by omega
      have hdrop : m * batchSize ≤ (pending.drop batchSize).length := by
        rw [List.length_drop]
        omega
      obtain ⟨ih1, ih2⟩ := ih batchSize (pending.drop batchSize) hdrop
      refine ⟨?_, ?_⟩
      · rw [dispatcherRun_succ, if_pos hbs, ih1, expectedBatches_succ,
          expectedReplies_succ]
      · rw [expectedBatches_succ, List.length_cons, ih2]

/-- Witness for C1 at the claimed configuration `iteration_limit = 8`,
`batch_size = 2` (so `8 / 2 = 4` dispatcher iterations) with eight
pending requests. -/
theorem dispatcher_batches_replies_witness :
    ((8 : Nat) / 2) * 2 ≤
      ((List.range 8).map (fun k => (k, k)) : List (Nat × Nat)).length ∧
    dispatcherRun (fun fs : List Nat => (fs.map (fun f => (f : ℚ)), fs)) 2 (8 / 2)
        ((List.range 8).map (fun k => (k, k))) =
      some (expectedBatches 2 (8 / 2) ((List.range 8).map (fun k => (k, k))),
        expectedReplies (fun fs : List Nat => (fs.map (fun f => (f : ℚ)), fs))
          2 (8 / 2) ((List.range 8).map (fun k => (k, k)))) ∧
    (expectedBatches 2 ((8 : Nat) / 2)
      ((List.range 8).map (fun k => (k, k)) : List (Nat × Nat))).length = 8 / 2 := by
  have h := dispatcher_batches_replies (fun fs : List Nat =>
    (fs.map (fun f => (f : ℚ)), fs)) (8 / 2) 2
    ((List.range 8).map (fun k => (k, k))) (by simp)
  exact ⟨by simp, h.1, h.2⟩

/-- Step equation: an idle worker whose `fetch_sub` claims a positive
value and whose probe yields a non-empty trace enqueues its request. -/
theorem sysStep_work_probe (s : SysState) (w : Bool) (hw : s.wstatus w = .idle)
    (hrem : 0 < s.rem) :
    sysStep s (.work w false) =
      some { s.setw w .waiting with rem := s.rem - 1, queue := s.queue ++ [w] } := by
  rw [sysStep, hw]
  rw [if_pos hrem, if_neg (by decide)]

/-- Step equation: an idle worker whose `fetch_sub` claims a
non-positive value exits its loop. -/
theorem sysStep_work_exit (s : SysState) (w : Bool) (e : Bool) (hw : s.wstatus w = .idle)
    (hrem : ¬ 0 < s.rem) :
    sysStep s (.work w e) = some { s.setw w .exited with rem := s.rem - 1 } := by
  rw [sysStep, hw]
  rw [if_neg hrem]

/-- Step equation: a waiting or exited worker cannot take a step. -/
theorem sysStep_work_blocked (s : SysState) (w : Bool) (e : Bool)
    (hw : s.wstatus w ≠ .idle) : sysStep s (.work w e) = none := by
  rw [sysStep]
  cases hs : s.wstatus w with
  | idle => exact absurd hs hw
  | waiting => rfl
  | exited => rfl

/-- Step equation: receiving the request that completes a batch of two
runs the evaluator, counts the batch and its two insertions, and lets
both requesters resume. -/
theorem sysStep_recv_complete (s : SysState) (h : Bool) (rest : List Bool)
    (hb : s.batches < 4) (hq : s.queue = h :: rest) (hlen : s.batchAcc.length = 1) :
    sysStep s .recv =
      some
        ((({ s with
              queue := rest, batchAcc := [], batches := s.batches + 1,
              inserts := s.inserts + 2 }.setw
            ((s.batchAcc ++ [h]).getD 0 false) .idle).setw
          ((s.batchAcc ++ [h]).getD 1 false) .idle)) := by
  have hcond : (s.batchAcc ++ [h]).length = 2 := by
    rw [List.length_append, List.length_singleton, hlen]
  simp only [sysStep, hq]
  rw [if_pos hb, if_pos hcond]

/-- Step equation: receiving a request that does not complete a batch
just moves it into the accumulator. -/
theorem sysStep_recv_dequeue (s : SysState) (h : Bool) (rest : List Bool)
    (hb : s.batches < 4) (hq : s.queue = h :: rest)
    (hlen : s.batchAcc.length ≠ 1) :
    sysStep s .recv = some { s with queue := rest, batchAcc := s.batchAcc ++ [h] } := by
  have hcond : ¬ (s.batchAcc ++ [h]).length = 2 := by
    rw [List.length_append, List.length_singleton]
    omega
  simp only [sysStep, hq]
  rw [if_pos hb, if_neg hcond]

/-- Step equation: the dispatcher blocks when no request is pending. -/
theorem sysStep_recv_empty (s : SysState) (hq : s.queue = []) :
    sysStep s .recv = none := by
  rw [sysStep, hq]
  split <;> rfl

/-- Step equation: the dispatcher loop has finished after 4 batches. -/
theorem sysStep_recv_done (s : SysState) (hb : ¬ s.batches < 4) :
    sysStep s .recv = none := by
  rw [sysStep, if_neg hb]

/-- `setw` only touches the worker-status fields. -/
theorem setw_batchAcc (s : SysState) (w : Bool) (st : WStatus) :
    (s.setw w st).batchAcc = s.batchAcc := by
  cases w <;> rfl

/-- `setw` only touches the worker-status fields. -/
theorem setw_queue (s : SysState) (w : Bool) (st : WStatus) :
    (s.setw w st).queue = s.queue := by
  cases w <;> rfl

/-- `setw` only touches the worker-status fields. -/
theorem setw_rem (s : SysState) (w : Bool) (st : WStatus) :
    (s.setw w st).rem = s.rem := by
  cases w <;> rfl

/-- Step equation: an idle worker whose `fetch_sub` claims a positive
value but whose probe yields an empty trace sends no request: the
iteration is consumed with no other observable effect. -/
theorem sysStep_work_empty (s : SysState) (w : Bool) (hw : s.wstatus w = .idle)
    (hrem : 0 < s.rem) :
    sysStep s (.work w true) = some { s with rem := s.rem - 1 } := by
  rw [sysStep, hw]
  rw [if_pos hrem, if_pos rfl]

/-- There are only two workers, so no status is held by more than two. -/
theorem statusCount_le_two (s : SysState) (st : WStatus) : s.statusCount st ≤ 2 := by
  unfold SysState.statusCount
  split_ifs <;> omega

/-- `SysInv` is preserved by every enabled step whose probe (if any)
returned a non-empty trace. -/
theorem sysInv_step (s s' : SysState) (a : SysAct)
    (hne : ∀ w : Bool, a ≠ SysAct.work w true)
    (hInv : SysInv s) (hstep : sysStep s a = some s') : SysInv s' := by
  obtain ⟨i1, i2, i3, i4, i5, i6, i7⟩ := hInv
  cases a with
  | work w e =>
    cases e with
    | true => exact absurd rfl (hne w)
    | false =>
      cases hw : s.wstatus w with
      | waiting =>
        rw [sysStep_work_blocked s w false (by rw [hw]; decide)] at hstep
        exact Option.noConfusion hstep
      | exited =>
        rw [sysStep_work_blocked s w false (by rw [hw]; decide)] at hstep
        exact Option.noConfusion hstep
      | idle =>
        have hnoM : w ∉ s.queue ++ s.batchAcc := fun hm => by
          have hcon := i6 w hm
          rw [hw] at hcon
          exact WStatus.noConfusion hcon
        by_cases hrem : 0 < s.rem
        · rw [sysStep_work_probe s w hw hrem] at hstep
          have hs' := Option.some.inj hstep
          subst hs'
          refine ⟨?_, ?_, ?_, ?_, ?_, ?_, ?_⟩
          · cases w <;>
              (simp [SysState.wstatus] at hw
               simp [SysState.setw, SysState.statusCount, SysState.wstatus, hw] at i1 ⊢
               split_ifs at i1 ⊢ <;> omega)
          · cases w <;> exact i2
          · cases w <;> exact i3
          · cases w <;>
              (simp [SysState.wstatus] at hw
               simp [SysState.setw, SysState.statusCount, SysState.wstatus, hw] at i4 ⊢
               split_ifs at i4 ⊢ <;> omega)
          · cases w <;>
              (simp [SysState.wstatus] at hw
               simp [SysState.setw, SysState.statusCount, SysState.wstatus, hw] at i5 ⊢
               split_ifs at i5 ⊢ <;> omega)
          · intro x hx
            have hxM : x = w ∨ x ∈ s.queue ++ s.batchAcc := by
              simp only [setw_batchAcc, List.mem_append, List.mem_singleton] at hx ⊢
              tauto
            rcases hxM with rfl | hxM
            · cases x <;> simp [SysState.setw, SysState.wstatus]
            · have hx6 := i6 x hxM
              have hxw : x ≠ w := fun hxw => by
                rw [hxw, hw] at hx6
                exact WStatus.noConfusion hx6
              cases w <;> cases x <;>
                simp_all [SysState.setw, SysState.wstatus]
          · have hmain : (s.queue ++ w :: s.batchAcc).Nodup := by
              rw [List.nodup_middle, List.nodup_cons]
              exact ⟨hnoM, i7⟩
            cases w <;>
              (simp only [SysState.setw]
               rw [List.append_assoc, List.singleton_append]
               exact hmain)
        · rw [sysStep_work_exit s w false hw hrem] at hstep
          have hs' := Option.some.inj hstep
          subst hs'
          refine ⟨?_, ?_, ?_, ?_, ?_, ?_, ?_⟩
          · cases w <;>
              (simp [SysState.wstatus] at hw
               simp [SysState.setw, SysState.statusCount, SysState.wstatus, hw] at i1 ⊢
               split_ifs at i1 ⊢ <;> omega)
          · cases w <;> exact i2
          · cases w <;> exact i3
          · cases w <;>
              (simp [SysState.wstatus] at hw
               simp [SysState.setw, SysState.statusCount, SysState.wstatus, hw] at i4 ⊢
               split_ifs at i4 ⊢ <;> omega)
          · cases w <;>
              (simp [SysState.wstatus] at hw
               simp [SysState.setw, SysState.statusCount, SysState.wstatus, hw] at i5 ⊢
               split_ifs at i5 ⊢ <;> omega)
          · intro x hx
            have hx6 : s.wstatus x = .waiting := by
              apply i6 x
              cases w <;> simpa using hx
            have hxw : x ≠ w := fun hxw => by
              rw [hxw, hw] at hx6
              exact WStatus.noConfusion hx6
            cases w <;> cases x <;>
              simp_all [SysState.setw, SysState.wstatus]
          · cases w <;> exact i7
  | recv =>
    by_cases hb : s.batches < 4
    · cases hq : s.queue with
      | nil =>
        rw [sysStep_recv_empty s hq] at hstep
        exact Option.noConfusion hstep
      | cons h rest =>
        by_cases hlen : s.batchAcc.length = 1
        · obtain ⟨x, hx⟩ := List.length_eq_one.mp hlen
          rw [sysStep_recv_complete s h rest hb hq hlen] at hstep
          have hs' := Option.some.inj hstep
          subst hs'
          have hrest : rest = [] := by
            have hc2 := statusCount_le_two s .waiting
            rw [hq, hx] at i1
            simp at i1
            have hr0 : rest.length = 0 := by omega
            exact List.length_eq_zero.mp hr0
          subst hrest
          have hhw : s.wstatus h = .waiting := by
            apply i6 h
            rw [hq]
            simp
          have hxw : s.wstatus x = .waiting := by
            apply i6 x
            rw [hx]
            simp
          have hxh : x ≠ h := by
            rw [hq, hx] at i7
            simp at i7
            exact fun he => i7 he.symm
          rw [hq, hx] at i4
          rw [hx]
          cases x <;> cases h
          · exact absurd rfl hxh
          · simp [SysState.wstatus] at hxw hhw
            simp [SysState.statusCount, hxw, hhw] at i4 i5
            refine ⟨?_, ?_, ?_, ?_, ?_, ?_, ?_⟩ <;>
              simp [SysState.setw, SysState.statusCount, SysState.wstatus, hxw, hhw] <;>
              omega
          · simp [SysState.wstatus] at hxw hhw
            simp [SysState.statusCount, hxw, hhw] at i4 i5
            refine ⟨?_, ?_, ?_, ?_, ?_, ?_, ?_⟩ <;>
              simp [SysState.setw, SysState.statusCount, SysState.wstatus, hxw, hhw] <;>
              omega
          · exact absurd rfl hxh
        · rw [sysStep_recv_dequeue s h rest hb hq hlen] at hstep
          have hs' := Option.some.inj hstep
          subst hs'
          refine ⟨?_, ?_, ?_, ?_, ?_, ?_, ?_⟩
          · show s.statusCount .waiting = _
            rw [hq] at i1
            simp at i1 ⊢
            omega
          · exact i2
          · simp only [List.length_append, List.length_singleton]
            omega
          · show (_ + _ + _ + (s.statusCount .exited : Int) : Int) = _
            rw [hq] at i4
            simp at i4 ⊢
            omega
          · exact i5
          · intro x hx
            show s.wstatus x = .waiting
            apply i6 x
            rw [hq]
            simp only [List.mem_append, List.mem_singleton, List.mem_cons] at hx ⊢
            tauto
          · show (rest ++ (s.batchAcc ++ [h])).Nodup
            rw [hq] at i7
            rw [← List.append_assoc, List.nodup_middle, List.append_nil]
            simpa using i7
    · rw [sysStep_recv_done s hb] at hstep
      exact Option.noConfusion hstep

/-- Every enabled step strictly decreases the termination measure, so
no schedule of more than 300 actions stays enabled from the initial
state. -/
theorem sysMeasure_step (s s' : SysState) (a : SysAct) (hInv : SysInv s)
    (hstep : sysStep s a = some s') : sysMeasure s' < sysMeasure s := by
  obtain ⟨i1, i2, i3, i4, i5, i6, i7⟩ := hInv
  cases a with
  | work w e =>
    cases hw : s.wstatus w with
    | waiting =>
      rw [sysStep_work_blocked s w e (by rw [hw]; decide)] at hstep
      exact Option.noConfusion hstep
    | exited =>
      rw [sysStep_work_blocked s w e (by rw [hw]; decide)] at hstep
      exact Option.noConfusion hstep
    | idle =>
      have hex : s.statusCount .exited ≤ 1 := by
        cases w <;>
          (simp [SysState.wstatus] at hw
           simp [SysState.statusCount, hw]
           split_ifs <;> omega)
      have hrem1 : -1 ≤ s.rem := by omega
      by_cases hrem : 0 < s.rem
      · cases e with
        | false =>
          rw [sysStep_work_probe s w hw hrem] at hstep
          have hs' := Option.some.inj hstep
          subst hs'
          simp [sysMeasure, setw_batchAcc, List.length_append]
          omega
        | true =>
          rw [sysStep_work_empty s w hw hrem] at hstep
          have hs' := Option.some.inj hstep
          subst hs'
          simp [sysMeasure]
          omega
      · rw [sysStep_work_exit s w e hw hrem] at hstep
        have hs' := Option.some.inj hstep
        subst hs'
        simp [sysMeasure, setw_queue, setw_batchAcc]
        omega
  | recv =>
    by_cases hb : s.batches < 4
    · cases hq : s.queue with
      | nil =>
        rw [sysStep_recv_empty s hq] at hstep
        exact Option.noConfusion hstep
      | cons h rest =>
        by_cases hlen : s.batchAcc.length = 1
        · rw [sysStep_recv_complete s h rest hb hq hlen] at hstep
          have hs' := Option.some.inj hstep
          subst hs'
          simp [sysMeasure, setw_rem, setw_queue, setw_batchAcc, hq]
          omega
        · rw [sysStep_recv_dequeue s h rest hb hq hlen] at hstep
          have hs' := Option.some.inj hstep
          subst hs'
          simp [sysMeasure, hq, List.length_append]
          omega
    · rw [sysStep_recv_done s hb] at hstep
      exact Option.noConfusion hstep

/-- In an invariant state where no action is enabled, the dispatcher
has run its 4 batches, both workers have exited, and 8 positions were
inserted into the search tree. -/
theorem sysStuck_final (s : SysState) (hInv : SysInv s) (hstuck : SysStuck s) :
    SysFinal s ∧ s.batches = 4 ∧ s.inserts = 8 := by
  obtain ⟨i1, i2, i3, i4, i5, i6, i7⟩ := hInv
  have hni : ∀ w : Bool, s.wstatus w ≠ .idle := by
    intro w hw
    by_cases hrem : 0 < s.rem
    · have hc := hstuck (.work w false)
      rw [sysStep_work_probe s w hw hrem] at hc
      exact Option.noConfusion hc
    · have hc := hstuck (.work w false)
      rw [sysStep_work_exit s w false hw hrem] at hc
      exact Option.noConfusion hc
  have hsum : s.statusCount .waiting + s.statusCount .exited = 2 := by
    have h0 := hni false
    have h1 := hni true
    simp [SysState.wstatus] at h0 h1
    unfold SysState.statusCount
    cases hw0 : s.w0 <;> cases hw1 : s.w1 <;> simp_all
  have hble : s.batches ≤ 4 := by omega
  by_cases hb : s.batches < 4
  · cases hq : s.queue with
    | cons h rest =>
      by_cases hlen : s.batchAcc.length = 1
      · have hc := hstuck .recv
        rw [sysStep_recv_complete s h rest hb hq hlen] at hc
        exact Option.noConfusion hc
      · have hc := hstuck .recv
        rw [sysStep_recv_dequeue s h rest hb hq hlen] at hc
        exact Option.noConfusion hc
    | nil =>
      exfalso
      rw [hq] at i1 i4
      simp at i1 i4
      omega
  · have hb4 : s.batches = 4 := by omega
    have hins : s.inserts = 8 := by omega
    have hwait : s.statusCount .waiting = 0 := by omega
    have hex2 : s.statusCount .exited = 2 := by omega
    have hw01 : s.w0 = .exited ∧ s.w1 = .exited := by
      unfold SysState.statusCount at hex2
      split_ifs at hex2
      · exact ⟨by assumption, by assumption⟩
      all_goals omega
    exact ⟨⟨hb4, hw01.1, hw01.2⟩, hb4, hins⟩

/-- Any schedule that stays enabled from an invariant state is no
longer than the state's measure, and preserves the invariant, provided
no probe in it returns an empty trace. -/
theorem sysRun_le (acts : List SysAct) : ∀ (s0 s : SysState), SysInv s0 →
    sysRun s0 acts = some s → (∀ w : Bool, SysAct.work w true ∉ acts) →
    acts.length ≤ sysMeasure s0 ∧ SysInv s := by
  induction acts with
  | nil =>
    intro s0 s hInv hrun hne
    rw [sysRun] at hrun
    have hs := Option.some.inj hrun
    subst hs
    exact ⟨Nat.zero_le _, hInv⟩
  | cons a rest ih =>
    intro s0 s hInv hrun hne
    rw [sysRun] at hrun
    cases hstep : sysStep s0 a with
    | none =>
      rw [hstep] at hrun
      exact Option.noConfusion hrun
    | some s1 =>
      rw [hstep] at hrun
      have hnea : ∀ w : Bool, a ≠ SysAct.work w true :=
        fun w hw => hne w (hw ▸ List.mem_cons_self a rest)
      have hInv1 := sysInv_step s0 s1 a hnea hInv hstep
      have hlt := sysMeasure_step s0 s1 a hInv hstep
      have hner : ∀ w : Bool, SysAct.work w true ∉ rest :=
        fun w hm => hne w (List.mem_cons_of_mem a hm)
      obtain ⟨hlen, hI⟩ := ih s1 s hInv1 hrun hner
      refine ⟨?_, hI⟩
      rw [List.length_cons]
      omega

/-- **C2** (amended).  At `iteration_limit = 8`, `batch_size = 2`,
`thread_count = 2`, and **provided every probe returns a non-empty
trace**, the coordinator cannot run forever (every schedule has at
most 300 steps), and whenever it comes to rest — no thread can take a
step — it has completed exactly `8 / 2 = 4` evaluator batches, both
workers have exited so `join` returns, and exactly 8 probed positions
were inserted into the search tree.  Without the proviso the claim
fails: see the deadlock counterexample. -/
theorem predict_coordination_amended (acts : List SysAct) (s : SysState)
    (hrun : sysRun sysInit acts = some s)
    (hne : ∀ w : Bool, SysAct.work w true ∉ acts) :
    acts.length ≤ 300 ∧
    (SysStuck s → SysFinal s ∧ s.batches = 4 ∧ s.inserts = 8) := by
  have hInv0 : SysInv sysInit := by
    unfold SysInv
    decide
  obtain ⟨hlen, hI⟩ := sysRun_le acts sysInit s hInv0 hrun hne
  have hm : sysMeasure sysInit = 300 := by decide
  exact ⟨by omega, fun hstuck => sysStuck_final s hI hstuck⟩

/-- **C2** witness: a complete interleaving — four rounds of two probes
and one batch of two, then both workers exit — reaches a stuck state,
and the theorem applied to it confirms 4 batches, 8 insertions and
both workers exited. -/
theorem predict_coordination_amended_witness :
    sysRun sysInit c2RunActs = some c2FinalState ∧
    (∀ w : Bool, SysAct.work w true ∉ c2RunActs) ∧
    (c2RunActs.length ≤ 300 ∧
      (SysStuck c2FinalState →
        SysFinal c2FinalState ∧ c2FinalState.batches = 4 ∧ c2FinalState.inserts = 8)) := by
  have hrun : sysRun sysInit c2RunActs = some c2FinalState := by decide
  have hne : ∀ w : Bool, SysAct.work w true ∉ c2RunActs := by decide
  exact ⟨hrun, hne, predict_coordination_amended c2RunActs c2FinalState hrun hne⟩

/-- **C2** counterexample to the unconditional claim: if worker 0's
very first probe returns an empty trace (`forward` found no legal
moves to expand — the worker sends no request for that iteration), the
schedule `c2DeadlockActs` reaches a reachable state in which no thread
can take a step, yet only 3 batches ran, only 6 positions were
inserted, and worker 0 still waits on its reply channel: `predict`'s
dispatcher blocks in `recv` forever and `join` is never reached. -/
theorem predict_coordination_cex :
    sysRun sysInit c2DeadlockActs = some c2DeadState ∧
    SysStuck c2DeadState ∧ ¬ SysFinal c2DeadState ∧
    c2DeadState.batches = 3 ∧ c2DeadState.inserts = 6 := by
  refine ⟨by decide, ?_, by unfold SysFinal; decide, rfl, rfl⟩
  intro a
  cases a with
  | work w e => cases w <;> cases e <;> decide
  | recv => decide

end DreamGo
